import Mathlib

/-!
Shallow embedding of the meal-plan scheduling subsystem of the FuelAI
repository: the Laravel `MealPlanController` (slot upsert in `addMeal`,
plan `touch`, ownership checks in `show`) and the React Native client
logic (`fetchDayData` active-plan resolution, `getDayOfWeek` and
`formatDateForComparison` date handling, `handleAddMealToSlot`
repeat-for-all-days assignment).

Machine integers are modelled as `Nat`/`Int`; JavaScript strings that the
code manipulates character by character are modelled as `List Char`;
database tables are modelled as Lean lists of records; fallible HTTP
endpoints return an `Except`-style response paired with the resulting
database state (errors leave the state unchanged, as a failed request
commits nothing).
-/

namespace FuelAI

/-- The `day_of_week` enumeration validated by
`'day_of_week' => 'required|in:Monday,...,Sunday'` in
`MealPlanController::addMeal`. -/
inductive Day
  | monday | tuesday | wednesday | thursday | friday | saturday | sunday
deriving DecidableEq, Repr

/-- The `meal_time` enumeration validated by
`'meal_time' => 'required|in:Breakfast,Lunch,Dinner,Snack'`. -/
inductive MealTime
  | breakfast | lunch | dinner | snack
deriving DecidableEq, Repr

/-- A `meal_plans` row (model `MealPlan`): id, owning user, name,
description, and the Laravel-managed timestamps.  Timestamps are epoch
numbers. -/
structure MealPlan where
  id : Nat
  user_id : Nat
  name : String
  description : String
  created_at : Nat
  updated_at : Nat
deriving DecidableEq, Repr

/-- A `meal_plan_meals` row (model `MealPlanMeal`): the slot record keyed
conceptually by (meal_plan_id, day_of_week, meal_time) and pointing at one
meal. -/
structure MealPlanMeal where
  id : Nat
  meal_plan_id : Nat
  meal_id : Nat
  day_of_week : Day
  meal_time : MealTime
  created_at : Nat
  updated_at : Nat
deriving DecidableEq, Repr

/-- A task as the client type in the calendar day view declares it
(`type Task` in the day screen): optional title/difficulty/category, a
completion flag and an optional deadline date string. -/
structure Task where
  id : Nat
  user_id : Nat
  title : Option String
  description : String
  difficulty : Option String
  category : Option String
  is_completed : Bool
  deadline : Option (List Char)
deriving DecidableEq, Repr

/-- The persisted state reached through the API: meal plans, the set of
existing meal ids (`exists:meals,id` validation target), slot rows, and
the auto-increment counter for fresh slot ids. -/
structure Db where
  plans : List MealPlan
  meals : List Nat
  slots : List MealPlanMeal
  nextSlotId : Nat
deriving Repr

/-- Error taxonomy of the controller: `firstOrFail`/`findOrFail` raise 404
NotFound, `$request->validate` raises 422 ValidationError, and `touch`
returns 403 Unauthorized on an ownership mismatch. -/
inductive ApiError
  | NotFound | ValidationError | Unauthorized
deriving DecidableEq, Repr

/-- Request body of `POST /meal-plans/{id}/add-meal`: the raw payload the
client sends (`meal_id`, `day_of_week`, `meal_time`). -/
structure AddMealRequest where
  meal_id : Nat
  day_of_week : String
  meal_time : String
deriving DecidableEq, Repr

/-- The `in:Monday,...,Sunday` validation rule: which `Day` a raw
`day_of_week` string denotes, if any. -/
def parseDay : String → Option Day
  | "Monday" => some .monday
  | "Tuesday" => some .tuesday
  | "Wednesday" => some .wednesday
  | "Thursday" => some .thursday
  | "Friday" => some .friday
  | "Saturday" => some .saturday
  | "Sunday" => some .sunday
  | _ => none

/-- The `in:Breakfast,Lunch,Dinner,Snack` validation rule. -/
def parseMealTime : String → Option MealTime
  | "Breakfast" => some .breakfast
  | "Lunch" => some .lunch
  | "Dinner" => some .dinner
  | "Snack" => some .snack
  | _ => none

/-- Rendering of a `Day` back to the string stored in `day_of_week`
columns and compared by the client. -/
def dayName : Day → String
  | .monday => "Monday"
  | .tuesday => "Tuesday"
  | .wednesday => "Wednesday"
  | .thursday => "Thursday"
  | .friday => "Friday"
  | .saturday => "Saturday"
  | .sunday => "Sunday"

/-- Rendering of a `MealTime` back to its stored string. -/
def mealTimeName : MealTime → String
  | .breakfast => "Breakfast"
  | .lunch => "Lunch"
  | .dinner => "Dinner"
  | .snack => "Snack"

/-- `MealPlanMeal::where('meal_plan_id', id)->where('day_of_week', ...)
->where('meal_time', ...)->first()` — the existing-slot lookup in
`addMeal`. -/
def findSlot (slots : List MealPlanMeal) (planId : Nat) (day : Day)
    (time : MealTime) : Option MealPlanMeal :=
  slots.find? fun s =>
    decide (s.meal_plan_id = planId ∧ s.day_of_week = day ∧ s.meal_time = time)

/-- The slot-store upsert at the heart of `addMeal` (lines 83–114 of
`MealPlanController.php`): look up the slot by (plan, day, time); if found,
`$existing->update(['meal_id' => ..., 'updated_at' => now()])` rewrites the
meal reference of that row in place; otherwise `MealPlanMeal::create`
inserts a fresh row.  Returns the new state and the returned slot. -/
def upsertSlot (db : Db) (planId mealId : Nat) (day : Day) (time : MealTime)
    (now : Nat) : Db × MealPlanMeal :=
  match findSlot db.slots planId day time with
  | some existing =>
      let updated := { existing with meal_id := mealId, updated_at := now }
      ({ db with
          slots := db.slots.map fun s => if s.id = existing.id then updated else s },
        updated)
  | none =>
      let created : MealPlanMeal :=
        { id := db.nextSlotId, meal_plan_id := planId, meal_id := mealId,
          day_of_week := day, meal_time := time, created_at := now,
          updated_at := now }
      ({ db with slots := db.slots ++ [created], nextSlotId := db.nextSlotId + 1 },
        created)

/-- `MealPlanController::addMeal`: validate the payload
(`meal_id` must exist, `day_of_week`/`meal_time` must be in their
enumerations), resolve the plan by id *and* owner with `firstOrFail`,
then upsert the slot.  A failure commits nothing. -/
def addMeal (db : Db) (authId planId : Nat) (req : AddMealRequest)
    (now : Nat) : Db × Except ApiError MealPlanMeal :=
  match parseDay req.day_of_week, parseMealTime req.meal_time with
  | some day, some time =>
      if req.meal_id ∈ db.meals then
        match db.plans.find? fun p => decide (p.id = planId ∧ p.user_id = authId) with
        | some _ =>
            let r := upsertSlot db planId req.meal_id day time now
            (r.1, .ok r.2)
        | none => (db, .error .NotFound)
      else (db, .error .ValidationError)
  | _, _ => (db, .error .ValidationError)

/-- `MealPlanController::touch`: `findOrFail` by id alone (404 if the plan
does not exist at all), then an explicit ownership check returning 403
Unauthorized, then `$mealPlan->touch()` which refreshes `updated_at` and
nothing else. -/
def touch (db : Db) (authId planId : Nat) (now : Nat) :
    Db × Except ApiError MealPlan :=
  match db.plans.find? fun p => decide (p.id = planId) with
  | none => (db, .error .NotFound)
  | some p =>
      if p.user_id ≠ authId then (db, .error .Unauthorized)
      else
        let touched := { p with updated_at := now }
        ({ db with
            plans := db.plans.map fun q =>
              if q.id = planId then { q with updated_at := now } else q },
          .ok touched)

/-- `MealPlanController::show`: `MealPlan::where('id', $id)
->where('user_id', auth()->id())->firstOrFail()` — a plan owned by another
user and a nonexistent plan both fail the combined filter and surface as
the same 404.  On success it returns the plan and its slot rows. -/
def showPlan (db : Db) (authId planId : Nat) :
    Except ApiError (MealPlan × List MealPlanMeal) :=
  match db.plans.find? fun p => decide (p.id = planId ∧ p.user_id = authId) with
  | none => .error .NotFound
  | some p => .ok (p, db.slots.filter fun s => decide (s.meal_plan_id = planId))

/-- `MealPlanController::index`: the authenticated user's plans ordered by
`created_at` descending.  The row order of the underlying table is the
snapshot order of `db.plans`; `orderBy` is modelled as a stable sort on
that snapshot. -/
def index (db : Db) (authId : Nat) : List MealPlan :=
  (db.plans.filter fun p => decide (p.user_id = authId)).insertionSort
    fun a b => b.created_at ≤ a.created_at

/-! ### JavaScript date handling

The client derives the weekday and the comparison date by splitting the
`YYYY-MM-DD` string on `'-'`, applying `parseInt`, and constructing a
local-time `new Date(year, month - 1, day)`.  The proleptic-Gregorian day
arithmetic below (days-from-civil and its inverse, Howard Hinnant's
algorithms) models the ECMAScript `Date` component normalization; the
process timezone enters only as the offset `off` (minutes, the
`getTimezoneOffset` convention UTC = local + off) used when an absolute
epoch instant is stored and read back. -/

/-- `String.prototype.split('-')` on the character-list model of a JS
string.  `split` always returns at least one (possibly empty) piece. -/
def splitOnDash : List Char → List (List Char)
  | [] => [[]]
  | c :: cs =>
      if c = '-' then [] :: splitOnDash cs
      else
        match splitOnDash cs with
        | [] => [[c]]
        | p :: ps => (c :: p) :: ps

/-- Value of a maximal run of leading decimal digits, or `none` when the
first character is not a digit — the digit-consuming core of JS
`parseInt(s, 10)` (which yields `NaN` when no digit is found). -/
def leadingDigitsVal (cs : List Char) : Option Nat :=
  let ds := cs.takeWhile Char.isDigit
  if ds.isEmpty then none
  else some (ds.foldl (fun a c => a * 10 + (c.toNat - 48)) 0)

/-- JS `parseInt(s, 10)`: an optional sign followed by leading digits;
`none` models `NaN`. -/
def parseIntJS : List Char → Option Int
  | '-' :: rest => (leadingDigitsVal rest).map fun n => -(n : Int)
  | '+' :: rest => (leadingDigitsVal rest).map fun n => (n : Int)
  | cs => (leadingDigitsVal cs).map fun n => (n : Int)

/-- Days since 1970-01-01 of the proleptic Gregorian date (y, m, d) with
`1 ≤ m ≤ 12` (d may overflow its month; the count is linear in d), after
Hinnant's `days_from_civil`. -/
def daysFromCivil (y m d : Int) : Int :=
  let y2 := if m ≤ 2 then y - 1 else y
  let era := y2 / 400
  let yoe := y2 - era * 400
  let mp := if 2 < m then m - 3 else m + 9
  let doy := (153 * mp + 2) / 5 + d - 1
  let doe := yoe * 365 + yoe / 4 - yoe / 100 + doy
  era * 146097 + doe - 719468

/-- Inverse of `daysFromCivil`: the (year, month, day) components a JS
`Date` holding that day reports through `getFullYear`/`getMonth`/
`getDate`, after Hinnant's `civil_from_days`. -/
def civilFromDays (z : Int) : Int × Int × Int :=
  let z2 := z + 719468
  let era := z2 / 146097
  let doe := z2 - era * 146097
  let yoe := (doe - doe / 1460 + doe / 36524 - doe / 146096) / 365
  let y := yoe + era * 400
  let doy := doe - (365 * yoe + yoe / 4 - yoe / 100)
  let mp := (5 * doy + 2) / 153
  let d := doy - (153 * mp + 2) / 5 + 1
  let m := mp + if mp < 10 then 3 else -9
  (if m ≤ 2 then y + 1 else y, m, d)

/-- `new Date(year, monthIndex, day)` component normalization: an
out-of-range `monthIndex` rolls the year, then the civil day count is
taken. -/
def jsDateDays (y monthIndex d : Int) : Int :=
  daysFromCivil (y + monthIndex / 12) (monthIndex % 12 + 1) d

/-- `new Date(y, monthIndex, d).getDay()` as observed in a process whose
timezone offset is `off` minutes: the constructor turns the local civil
day into an absolute epoch instant, `getDay` converts that instant back
to local time and takes the weekday (0 = Sunday; 1970-01-01 was a
Thursday, index 4). -/
def jsGetDay (y monthIndex d off : Int) : Int :=
  let epochMinutes := jsDateDays y monthIndex d * 1440 + off
  let localMinutes := epochMinutes - off
  (localMinutes / 1440 + 4) % 7

/-- The `days` array of `getDayOfWeek`. -/
def weekdayNames : List String :=
  ["Sunday", "Monday", "Tuesday", "Wednesday", "Thursday", "Friday", "Saturday"]

/-- `getDayOfWeek(dateStr)` of the calendar day screen, with the process
timezone offset made explicit: split on `'-'`, `parseInt` the three
components, build a local `Date` and index `days` by `getDay()`.  A
missing or digit-free component makes every lookup `NaN` and the array
index yields JS `undefined`, modelled as the string "undefined". -/
def getDayOfWeek (off : Int) (dateStr : List Char) : String :=
  let parts := splitOnDash dateStr
  match parseIntJS (parts.getD 0 []), parseIntJS (parts.getD 1 []),
      parseIntJS (parts.getD 2 []) with
  | some y, some mo, some d =>
      weekdayNames.getD (jsGetDay y (mo - 1) d off).toNat "undefined"
  | _, _, _ => "undefined"

/-- The digit character of `n ∈ [0, 9]` (ASCII code 48 + n). -/
def digitChar (n : Nat) : Char :=
  Char.ofNat (48 + n)

/-- Decimal rendering of a natural number, as JS `String(n)` produces
it. -/
def natToChars (n : Nat) : List Char :=
  if _h : n < 10 then [digitChar n]
  else natToChars (n / 10) ++ [digitChar (n % 10)]
  termination_by n
  decreasing_by omega

/-- JS `String(i)` for an integer. -/
def intToChars (i : Int) : List Char :=
  if i < 0 then '-' :: natToChars (-i).toNat else natToChars i.toNat

/-- JS `String(x).padStart(2, '0')`. -/
def padStartTwo (cs : List Char) : List Char :=
  if 2 ≤ cs.length then cs
  else if cs.length = 1 then '0' :: cs
  else ['0', '0']

/-- The `/^\d{4}-\d{2}-\d{2}$/` test of `formatDateForComparison`. -/
def matchesYmdPattern : List Char → Bool
  | [a, b, c, d, '-', e, f, '-', g, h] =>
      a.isDigit && b.isDigit && c.isDigit && d.isDigit &&
      e.isDigit && f.isDigit && g.isDigit && h.isDigit
  | _ => false

/-- The `${yyyy}-${mm}-${dd}` template of `formatDateForComparison`, with
month and day zero-padded. -/
def renderYmd (y m d : Int) : List Char :=
  intToChars y ++ '-' :: (padStartTwo (intToChars m) ++ '-' :: padStartTwo (intToChars d))

/-- `formatDateForComparison(dateStr)` of the calendar day screen: a
string already matching `YYYY-MM-DD` is returned as-is; otherwise the
string is split on `'-'`, parsed, normalized through a local `Date`, and
re-rendered zero-padded.  When a component has no digits the `Date` is
invalid and every component renders as "NaN". -/
def formatDateForComparison (s : List Char) : List Char :=
  if matchesYmdPattern s then s
  else
    let parts := splitOnDash s
    match parseIntJS (parts.getD 0 []), parseIntJS (parts.getD 1 []),
        parseIntJS (parts.getD 2 []) with
    | some y, some mo, some d =>
        match civilFromDays (jsDateDays y (mo - 1) d) with
        | (yy, mm, dd) => renderYmd yy mm dd
    | _, _, _ => "NaN-NaN-NaN".toList

/-! ### Client: day view (`fetchDayData`) and meal-plan view -/

/-- Result of `fetchDayData`: the `meals` and `tasks` state the day screen
ends up rendering. -/
structure DayData where
  meals : List MealPlanMeal
  tasks : List Task
deriving DecidableEq, Repr

/-- The client-side sort
`meal_plans.sort((a, b) => new Date(b.updated_at) - new Date(a.updated_at))`:
descending by `updated_at`; ECMAScript `Array.prototype.sort` is stable,
modelled by a stable insertion sort. -/
def sortPlansByUpdatedDesc (plans : List MealPlan) : List MealPlan :=
  plans.insertionSort fun a b => b.updated_at ≤ a.updated_at

/-- The active-plan resolution of `fetchDayData`: fetch the user's plans
(`api.getMealPlans`, i.e. `index`), sort them by `updated_at` descending,
and take the first — `none` when the user has no plans
(`sortedPlans.length > 0` guard). -/
def mostRecentPlan (db : Db) (authId : Nat) : Option MealPlan :=
  (sortPlansByUpdatedDesc (index db authId)).head?

/-- `fetchDayData` (day screen, lines 240–277): resolve the most recently
updated plan, load its slot rows (`api.getMealPlan`), keep those whose
`day_of_week` equals the weekday derived from the date, and independently
filter the tasks returned by `api.getTasks` (passed in as `apiTasks`,
the task backend being outside this repository's sources) to those whose
deadline formats to the same comparison date.  A falsy (`null` or empty)
deadline is excluded before any comparison. -/
def fetchDayData (db : Db) (authId : Nat) (apiTasks : List Task)
    (dateKey : List Char) (off : Int) : DayData :=
  let dayOfWeek := getDayOfWeek off dateKey
  let meals :=
    match mostRecentPlan db authId with
    | some activePlan =>
        (db.slots.filter fun s => decide (s.meal_plan_id = activePlan.id)).filter
          fun mpm => decide (dayName mpm.day_of_week = dayOfWeek)
    | none => []
  let targetDate := formatDateForComparison dateKey
  let tasks := apiTasks.filter fun t =>
    match t.deadline with
    | none => false
    | some dl =>
        if dl = [] then false
        else decide (formatDateForComparison dl = targetDate)
  ⟨meals, tasks⟩

/-- `getMealForTime(mealTime)` of the day screen:
`meals.find(m => m.meal_time === mealTime)`. -/
def getMealForTime (meals : List MealPlanMeal) (mealTime : String) :
    Option MealPlanMeal :=
  meals.find? fun m => decide (mealTimeName m.meal_time = mealTime)

/-- The `daysOfWeek` constant of the meal-plan view (part_000 line 47):
the fixed Monday→Sunday iteration set of the repeat directive. -/
def daysOfWeek : List String :=
  ["Monday", "Tuesday", "Wednesday", "Thursday", "Friday", "Saturday", "Sunday"]

/-- The `mealTimes` constant of the client views. -/
def mealTimes : List String :=
  ["Breakfast", "Lunch", "Dinner", "Snack"]

/-- What `handleAddMealToSlot` surfaces through `Alert.alert`: one success
message or one failure message. -/
inductive AlertOutcome
  | success (msg : String)
  | failure (msg : String)
deriving DecidableEq, Repr

/-- The `for (const day of daysOfWeek) await api.addMealToPlan(...)` loop
of `handleAddMealToSlot`: one `addMeal` request per remaining day, aborted
by the first rejection.  `httpFails day` models a transport failure of
that day's request (thrown before the backend commits anything); a backend
error response also makes `request` throw.  Returns the committed state
and whether the loop ran to completion. -/
def repeatLoop (authId planId mealId : Nat) (time : String) (now : Nat)
    (httpFails : String → Bool) : List String → Db → Db × Bool
  | [], db => (db, true)
  | day :: rest, db =>
      if httpFails day then (db, false)
      else
        match addMeal db authId planId ⟨mealId, day, time⟩ now with
        | (db2, .ok _) => repeatLoop authId planId mealId time now httpFails rest db2
        | (db2, .error _) => (db2, false)

/-- `handleAddMealToSlot(meal)` (part_000 lines 138–167): with the
repeat-for-all-days switch on, issue one upsert per day of `daysOfWeek`
inside a single `try`; any rejection jumps to the `catch`, which surfaces
the single alert `'Failed to add meal to plan'`.  Without the switch, a
single upsert for the selected slot. -/
def handleAddMealToSlot (db : Db) (authId planId mealId : Nat)
    (mealName selectedDay selectedTime : String) (repeatForAllDays : Bool)
    (now : Nat) (httpFails : String → Bool) : Db × AlertOutcome :=
  if repeatForAllDays then
    match repeatLoop authId planId mealId selectedTime now httpFails daysOfWeek db with
    | (db2, true) =>
        (db2, .success (mealName ++ " added to " ++ selectedTime ++ " for all days!"))
    | (db2, false) => (db2, .failure "Failed to add meal to plan")
  else
    if httpFails selectedDay then (db, .failure "Failed to add meal to plan")
    else
      match addMeal db authId planId ⟨mealId, selectedDay, selectedTime⟩ now with
      | (db2, .ok _) =>
          (db2, .success (mealName ++ " added to " ++ selectedDay ++ " " ++ selectedTime ++ "!"))
      | (db2, .error _) => (db2, .failure "Failed to add meal to plan")

/-! ### Sequences of slot writes, and store invariants -/

/-- One recorded `addMeal` request of a call sequence. -/
structure AddCall where
  planId : Nat
  req : AddMealRequest
  now : Nat
deriving DecidableEq, Repr

/-- Run a sequence of `addMeal` requests in order, threading the state. -/
def runAddMeals (db : Db) (authId : Nat) (calls : List AddCall) : Db :=
  calls.foldl (fun d c => (addMeal d authId c.planId c.req c.now).1) db

/-- The last call of a sequence that targets the (plan, day, time)
triple. -/
def lastCallFor (planId : Nat) (day : Day) (time : MealTime)
    (calls : List AddCall) : Option AddCall :=
  (calls.filter fun c =>
    decide (c.planId = planId ∧ parseDay c.req.day_of_week = some day ∧
      parseMealTime c.req.meal_time = some time)).getLast?

/-- Number of slot rows for one (plan, day, time) triple. -/
def slotCount (slots : List MealPlanMeal) (planId : Nat) (day : Day)
    (time : MealTime) : Nat :=
  slots.countP fun s =>
    decide (s.meal_plan_id = planId ∧ s.day_of_week = day ∧ s.meal_time = time)

/-- The slot-store invariant: at most one row per (plan, day, time)
triple. -/
def slotsUnique (slots : List MealPlanMeal) : Prop :=
  ∀ planId day time, slotCount slots planId day time ≤ 1

/-- Primary-key discipline of the slot table: row ids are pairwise
distinct and below the auto-increment counter. -/
def slotIdsOk (db : Db) : Prop :=
  db.slots.Pairwise (fun a b => a.id ≠ b.id) ∧ ∀ s ∈ db.slots, s.id < db.nextSlotId

/-- Well-formedness of a database state. -/
def DbOk (db : Db) : Prop :=
  slotsUnique db.slots ∧ slotIdsOk db

/-- The slot-key predicate used by `findSlot` and `slotCount`. -/
def slotKeyP (planId : Nat) (day : Day) (time : MealTime) : MealPlanMeal → Bool :=
  fun s => decide (s.meal_plan_id = planId ∧ s.day_of_week = day ∧ s.meal_time = time)

/-- The calls a repeat-for-all-days directive issues: one `addMeal` request
per day string, all with the same meal, time and plan. -/
def mkRepeatCalls (planId mealId : Nat) (timeStr : String) (now : Nat)
    (days : List String) : List AddCall :=
  days.map fun d => ⟨planId, ⟨mealId, d, timeStr⟩, now⟩

/-- A request that passes `addMeal`'s validation against the state `db`:
parseable day and time, an existing meal, and a plan owned by the
requesting user. -/
def ValidCall (db : Db) (authId : Nat) (c : AddCall) : Prop :=
  (∃ day, parseDay c.req.day_of_week = some day) ∧
  (∃ time, parseMealTime c.req.meal_time = some time) ∧
  c.req.meal_id ∈ db.meals ∧
  ∃ p ∈ db.plans, p.id = c.planId ∧ p.user_id = authId

/-- Leap year of the proleptic Gregorian calendar. -/
def isLeap (y : Int) : Prop :=
  (y % 4 = 0 ∧ y % 100 ≠ 0) ∨ y % 400 = 0

instance (y : Int) : Decidable (isLeap y) := by
  unfold isLeap
  infer_instance

/-- Number of days of month `m` of year `y`. -/
def daysInMonth (y m : Int) : Int :=
  if m = 2 then (if isLeap y then 29 else 28)
  else if m = 4 ∨ m = 6 ∨ m = 9 ∨ m = 11 then 30 else 31

/-- A real calendar date of the proleptic Gregorian calendar. -/
def validDate (y m d : Int) : Prop :=
  1 ≤ m ∧ m ≤ 12 ∧ 1 ≤ d ∧ d ≤ daysInMonth y m

instance (y m d : Int) : Decidable (validDate y m d) := by
  unfold validDate
  infer_instance

/-- The four digit characters of a year in [1000, 9999]. -/
def yearDigits (y : Int) : List Char :=
  [digitChar ((y / 1000).toNat), digitChar ((y / 100 % 10).toNat),
   digitChar ((y / 10 % 10).toNat), digitChar ((y % 10).toNat)]

/-- The two (zero-padded) digit characters of a number in [0, 99]. -/
def twoDigits (k : Int) : List Char :=
  [digitChar ((k / 10).toNat), digitChar ((k % 10).toNat)]

/-- A canonical backend deadline string: a zero-padded valid calendar date
with a four-digit year ("YYYY-MM-DD"), optionally followed by a time
suffix whose first character is not a digit (for example " 10:00:00" or
"T10:00:00.000Z"). -/
def GoodDeadline (dl : List Char) : Prop :=
  ∃ y m d suffix, validDate y m d ∧ 1000 ≤ y ∧ y ≤ 9999 ∧
    (suffix = [] ∨ ∃ c cs, suffix = c :: cs ∧ c.isDigit = false) ∧
    dl = renderYmd y m d ++ suffix

/-! ## Theorems -/

/-! ### Computation lemmas for the controller endpoints -/

theorem addMeal_valid_found (db : Db) (authId planId : Nat) (req : AddMealRequest)
    (now : Nat) (day : Day) (time : MealTime) (p : MealPlan)
    (hday : parseDay req.day_of_week = some day)
    (htime : parseMealTime req.meal_time = some time)
    (hmeal : req.meal_id ∈ db.meals)
    (hfind : db.plans.find?
      (fun q => decide (q.id = planId ∧ q.user_id = authId)) = some p) :
    addMeal db authId planId req now =
      ((upsertSlot db planId req.meal_id day time now).1,
        .ok (upsertSlot db planId req.meal_id day time now).2) := by
  unfold addMeal
  rw [hday, htime]
  dsimp only
  rw [if_pos hmeal, hfind]

theorem addMeal_valid_notfound (db : Db) (authId planId : Nat)
    (req : AddMealRequest) (now : Nat) (day : Day) (time : MealTime)
    (hday : parseDay req.day_of_week = some day)
    (htime : parseMealTime req.meal_time = some time)
    (hmeal : req.meal_id ∈ db.meals)
    (hfind : db.plans.find?
      (fun q => decide (q.id = planId ∧ q.user_id = authId)) = none) :
    addMeal db authId planId req now = (db, .error .NotFound) := by
  unfold addMeal
  rw [hday, htime]
  dsimp only
  rw [if_pos hmeal, hfind]

theorem addMeal_no_meal (db : Db) (authId planId : Nat) (req : AddMealRequest)
    (now : Nat) (day : Day) (time : MealTime)
    (hday : parseDay req.day_of_week = some day)
    (htime : parseMealTime req.meal_time = some time)
    (hmeal : req.meal_id ∉ db.meals) :
    addMeal db authId planId req now = (db, .error .ValidationError) := by
  unfold addMeal
  rw [hday, htime]
  dsimp only
  rw [if_neg hmeal]

theorem touch_found_owner (db : Db) (authId planId now : Nat) (p : MealPlan)
    (hfind : db.plans.find? (fun q => decide (q.id = planId)) = some p)
    (howner : p.user_id = authId) :
    touch db authId planId now =
      ({ db with plans := db.plans.map fun q =>
          if q.id = planId then { q with updated_at := now } else q },
        .ok { p with updated_at := now }) := by
  unfold touch
  rw [hfind]
  dsimp only
  rw [if_neg (by simpa using howner)]

theorem touch_found_other (db : Db) (authId planId now : Nat) (p : MealPlan)
    (hfind : db.plans.find? (fun q => decide (q.id = planId)) = some p)
    (howner : p.user_id ≠ authId) :
    touch db authId planId now = (db, .error .Unauthorized) := by
  unfold touch
  rw [hfind]
  dsimp only
  rw [if_pos howner]

theorem touch_notfound (db : Db) (authId planId now : Nat)
    (hfind : db.plans.find? (fun q => decide (q.id = planId)) = none) :
    touch db authId planId now = (db, .error .NotFound) := by
  unfold touch
  rw [hfind]

theorem showPlan_notfound (db : Db) (authId planId : Nat)
    (hfind : db.plans.find?
      (fun q => decide (q.id = planId ∧ q.user_id = authId)) = none) :
    showPlan db authId planId = .error .NotFound := by
  unfold showPlan
  rw [hfind]

/-! ### Timezone independence of the day-of-week derivation (C3) -/

theorem jsGetDay_eq_offset_zero (y monthIndex d off : Int) :
    jsGetDay y monthIndex d off = jsGetDay y monthIndex d 0 := by
  simp only [jsGetDay]
  omega

theorem getDayOfWeek_eq_offset_zero (off : Int) (s : List Char) :
    getDayOfWeek off s = getDayOfWeek 0 s := by
  unfold getDayOfWeek
  cases parseIntJS ((splitOnDash s).getD 0 []) <;>
    cases parseIntJS ((splitOnDash s).getD 1 []) <;>
      cases parseIntJS ((splitOnDash s).getD 2 []) <;>
        simp [jsGetDay_eq_offset_zero]

/-- Claim C3: the day-of-week derivation parses the date string as plain
year/month/day components (split on hyphens, `parseInt`, local `Date`
construction), so the derived weekday is identical under every process
timezone offset; in particular "2024-03-01" yields Friday under every
offset. -/
theorem claim_C3_dayOfWeek_timezone_independent :
    (∀ off off2 : Int, ∀ s : List Char, getDayOfWeek off s = getDayOfWeek off2 s) ∧
    (∀ off : Int, getDayOfWeek off (String.toList "2024-03-01") = "Friday") := by
  constructor
  · intro off off2 s
    rw [getDayOfWeek_eq_offset_zero, getDayOfWeek_eq_offset_zero off2]
  · intro off
    rw [getDayOfWeek_eq_offset_zero]
    rfl

/-! ### Error handling of `addMeal` (C6) -/

/-- Claim C6: `addMeal` fails with ValidationError when `day_of_week` or
`meal_time` is outside its enumeration or `meal_id` does not reference an
existing meal; with the payload valid it fails with NotFound when the plan
id does not resolve to a plan owned by the requesting user; and every
failure leaves the store unchanged (no slot created or modified). -/
theorem claim_C6_addMeal_errors (db : Db) (authId planId : Nat)
    (req : AddMealRequest) (now : Nat) :
    (parseDay req.day_of_week = none →
      addMeal db authId planId req now = (db, .error .ValidationError)) ∧
    (parseMealTime req.meal_time = none →
      addMeal db authId planId req now = (db, .error .ValidationError)) ∧
    (req.meal_id ∉ db.meals →
      addMeal db authId planId req now = (db, .error .ValidationError)) ∧
    ((∀ p ∈ db.plans, ¬(p.id = planId ∧ p.user_id = authId)) →
      parseDay req.day_of_week ≠ none → parseMealTime req.meal_time ≠ none →
      req.meal_id ∈ db.meals →
      addMeal db authId planId req now = (db, .error .NotFound)) ∧
    (∀ e, (addMeal db authId planId req now).2 = .error e →
      (addMeal db authId planId req now).1 = db) := by
  refine ⟨?_, ?_, ?_, ?_, ?_⟩
  · intro h
    unfold addMeal
    rw [h]
  · intro h
    unfold addMeal
    rw [h]
    cases parseDay req.day_of_week <;> rfl
  · intro h
    cases hd : parseDay req.day_of_week with
    | none =>
      unfold addMeal
      rw [hd]
    | some day =>
      cases ht : parseMealTime req.meal_time with
      | none =>
        unfold addMeal
        rw [hd, ht]
      | some time => exact addMeal_no_meal db authId planId req now day time hd ht h
  · intro hnone hd ht hm
    cases hd2 : parseDay req.day_of_week with
    | none => exact absurd hd2 hd
    | some day =>
      cases ht2 : parseMealTime req.meal_time with
      | none => exact absurd ht2 ht
      | some time =>
        have hfind : (db.plans.find? fun p =>
            decide (p.id = planId ∧ p.user_id = authId)) = none := by
          rw [List.find?_eq_none]
          intro p hp
          simpa using hnone p hp
        exact addMeal_valid_notfound db authId planId req now day time hd2 ht2 hm hfind
  · intro e
    cases hd2 : parseDay req.day_of_week with
    | none =>
      unfold addMeal
      rw [hd2]
      intro _
      rfl
    | some day =>
      cases ht2 : parseMealTime req.meal_time with
      | none =>
        unfold addMeal
        rw [hd2, ht2]
        intro _
        rfl
      | some time =>
        by_cases hm : req.meal_id ∈ db.meals
        · cases hfind : db.plans.find? fun p =>
              decide (p.id = planId ∧ p.user_id = authId) with
          | none =>
            rw [addMeal_valid_notfound db authId planId req now day time hd2 ht2 hm hfind]
            intro _
            rfl
          | some p =>
            rw [addMeal_valid_found db authId planId req now day time p hd2 ht2 hm hfind]
            intro h
            exact absurd h (by simp)
        · rw [addMeal_no_meal db authId planId req now day time hd2 ht2 hm]
          intro _
          rfl

theorem claim_C6_witness :
    parseDay "Funday" = none ∧
    addMeal ⟨[⟨1, 9, "Plan", "", 0, 0⟩], [7], [], 0⟩ 9 1 ⟨7, "Funday", "Lunch"⟩ 5 =
      (⟨[⟨1, 9, "Plan", "", 0, 0⟩], [7], [], 0⟩, .error .ValidationError) :=
  ⟨rfl, (claim_C6_addMeal_errors ⟨[⟨1, 9, "Plan", "", 0, 0⟩], [7], [], 0⟩ 9 1
    ⟨7, "Funday", "Lunch"⟩ 5).1 rfl⟩

/-! ### `touch` (C9) and its error-order contrast with `show` (C10) -/

/-- Claim C9: when the plan exists, `touch` verifies ownership and then
sets exactly that plan's `updated_at` to the current time, changing no
other field of any plan; when the plan belongs to a different user it
fails with Unauthorized and the state (hence every timestamp) is
unchanged. -/
theorem claim_C9_touch (db : Db) (authId planId now : Nat) (p : MealPlan)
    (hfind : db.plans.find? (fun q => decide (q.id = planId)) = some p) :
    (p.user_id = authId →
      (touch db authId planId now).2 = .ok { p with updated_at := now } ∧
      (touch db authId planId now).1.plans.length = db.plans.length ∧
      ∀ q ∈ (touch db authId planId now).1.plans, ∃ q₀ ∈ db.plans,
        q.id = q₀.id ∧ q.user_id = q₀.user_id ∧ q.name = q₀.name ∧
        q.description = q₀.description ∧ q.created_at = q₀.created_at ∧
        q.updated_at = (if q₀.id = planId then now else q₀.updated_at)) ∧
    (p.user_id ≠ authId →
      touch db authId planId now = (db, Except.error ApiError.Unauthorized)) := by
  constructor
  · intro howner
    have hres := touch_found_owner db authId planId now p hfind howner
    refine ⟨?_, ?_, ?_⟩
    · rw [hres]
    · rw [hres]
      exact List.length_map _ _
    · intro q hq
      rw [hres] at hq
      obtain ⟨q₀, hq₀, rfl⟩ := List.mem_map.1 hq
      refine ⟨q₀, hq₀, ?_⟩
      by_cases hid : q₀.id = planId <;> simp [hid]
  · intro howner
    exact touch_found_other db authId planId now p hfind howner

theorem claim_C9_witness :
    (⟨1, 9, "Plan", "", 0, 0⟩ : MealPlan).user_id = 9 ∧
    (touch ⟨[⟨1, 9, "Plan", "", 0, 0⟩], [7], [], 0⟩ 9 1 5).2 =
      .ok ⟨1, 9, "Plan", "", 0, 5⟩ :=
  ⟨rfl, ((claim_C9_touch ⟨[⟨1, 9, "Plan", "", 0, 0⟩], [7], [], 0⟩ 9 1 5
    ⟨1, 9, "Plan", "", 0, 0⟩ rfl).1 rfl).1⟩

/-- Claim C10: `touch` checks existence first (`findOrFail` by id alone),
so a wholly nonexistent plan id yields NotFound and Unauthorized arises
only for an existing plan owned by someone else; by contrast `show` and
`addMeal` filter by id and owner together, so another user's plan is
indistinguishable from a nonexistent one — both NotFound. -/
theorem claim_C10_touch_error_order (db : Db) (authId planId now : Nat)
    (req : AddMealRequest) (day : Day) (time : MealTime)
    (hday : parseDay req.day_of_week = some day)
    (htime : parseMealTime req.meal_time = some time)
    (hmeal : req.meal_id ∈ db.meals) :
    ((∀ p ∈ db.plans, p.id ≠ planId) →
      touch db authId planId now = (db, .error .NotFound) ∧
      showPlan db authId planId = .error .NotFound ∧
      (addMeal db authId planId req now).2 = .error .NotFound) ∧
    ((∀ p ∈ db.plans, p.id = planId → p.user_id ≠ authId) →
      (∃ p ∈ db.plans, p.id = planId) →
      (touch db authId planId now).2 = .error .Unauthorized ∧
      showPlan db authId planId = .error .NotFound ∧
      (addMeal db authId planId req now).2 = .error .NotFound) := by
  have hshow : (∀ p ∈ db.plans, p.id = planId → p.user_id ≠ authId) →
      (db.plans.find? fun p => decide (p.id = planId ∧ p.user_id = authId)) = none := by
    intro h
    rw [List.find?_eq_none]
    intro p hp
    simp only [decide_eq_true_eq, not_and]
    intro hid
    exact h p hp hid
  constructor
  · intro hnone
    have hn : (db.plans.find? fun q => decide (q.id = planId)) = none := by
      rw [List.find?_eq_none]
      intro p hp
      simpa using hnone p hp
    have hn2 : (db.plans.find? fun p =>
        decide (p.id = planId ∧ p.user_id = authId)) = none := by
      rw [List.find?_eq_none]
      intro p hp
      simp only [decide_eq_true_eq, not_and]
      intro hid
      exact absurd hid (hnone p hp)
    refine ⟨?_, ?_, ?_⟩
    · exact touch_notfound db authId planId now hn
    · exact showPlan_notfound db authId planId hn2
    · rw [addMeal_valid_notfound db authId planId req now day time hday htime hmeal hn2]
  · intro hother hex
    obtain ⟨p, hp, hpid⟩ := hex
    have hsome : ∃ q, (db.plans.find? fun q => decide (q.id = planId)) = some q := by
      have : ∃ q ∈ db.plans, (fun q => decide (q.id = planId)) q = true :=
        ⟨p, hp, by simpa using hpid⟩
      obtain ⟨q, hfq⟩ := (List.find?_isSome).2 this |> Option.isSome_iff_exists.1
      exact ⟨q, hfq⟩
    obtain ⟨q, hq⟩ := hsome
    have hqmem : q ∈ db.plans := List.mem_of_find?_eq_some hq
    have hqid : q.id = planId := by
      have := List.find?_some hq
      simpa using this
    have hquser : q.user_id ≠ authId := hother q hqmem hqid
    refine ⟨?_, ?_, ?_⟩
    · rw [touch_found_other db authId planId now q hq hquser]
    · exact showPlan_notfound db authId planId (hshow hother)
    · rw [addMeal_valid_notfound db authId planId req now day time hday htime hmeal
        (hshow hother)]

theorem claim_C10_witness :
    parseDay "Monday" = some Day.monday ∧
    parseMealTime "Lunch" = some MealTime.lunch ∧
    (7 : Nat) ∈ [7] ∧
    (touch ⟨[⟨1, 9, "Plan", "", 0, 0⟩], [7], [], 0⟩ 8 1 5).2 = .error .Unauthorized ∧
    showPlan ⟨[⟨1, 9, "Plan", "", 0, 0⟩], [7], [], 0⟩ 8 1 = .error .NotFound :=
  ⟨rfl, rfl, by decide, by
    have h := (claim_C10_touch_error_order ⟨[⟨1, 9, "Plan", "", 0, 0⟩], [7], [], 0⟩
      8 1 5 ⟨7, "Monday", "Lunch"⟩ Day.monday MealTime.lunch rfl rfl (by decide)).2
      (by decide) ⟨⟨1, 9, "Plan", "", 0, 0⟩, by decide, rfl⟩
    exact ⟨h.1, h.2.1⟩⟩

/-! ### Active-plan resolution (C2) -/

theorem sortPlans_perm (plans : List MealPlan) :
    (sortPlansByUpdatedDesc plans).Perm plans :=
  List.perm_insertionSort _ _

theorem sortPlans_sorted (plans : List MealPlan) :
    (sortPlansByUpdatedDesc plans).Sorted fun a b => b.updated_at ≤ a.updated_at := by
  haveI : IsTotal MealPlan (fun a b => b.updated_at ≤ a.updated_at) :=
    ⟨fun a b => Nat.le_total b.updated_at a.updated_at⟩
  haveI : IsTrans MealPlan (fun a b => b.updated_at ≤ a.updated_at) :=
    ⟨fun _ _ _ hab hbc => Nat.le_trans hbc hab⟩
  exact List.sorted_insertionSort _ _

theorem index_perm_filter (db : Db) (authId : Nat) :
    (index db authId).Perm (db.plans.filter fun p => decide (p.user_id = authId)) :=
  List.perm_insertionSort _ _

/-- Claim C2: `mostRecentPlan` (the `fetchDayData` pipeline of fetching the
user's plans and stably sorting them by `updated_at` descending) returns
`none` exactly when the user has no plans, and otherwise one of the user's
own plans whose `updated_at` is maximal among them.  In this embedding the
resolution is a pure function of the data snapshot (ECMAScript
`Array.prototype.sort` is stable), so repeated calls on the same snapshot
are literally the same value — ties are resolved deterministically. -/
theorem claim_C2_mostRecentPlan (db : Db) (authId : Nat) :
    (mostRecentPlan db authId = none ↔
      (db.plans.filter fun p => decide (p.user_id = authId)) = []) ∧
    (∀ p, mostRecentPlan db authId = some p →
      p ∈ db.plans ∧ p.user_id = authId ∧
      ∀ q ∈ db.plans, q.user_id = authId → q.updated_at ≤ p.updated_at) := by
  have hperm : (sortPlansByUpdatedDesc (index db authId)).Perm
      (db.plans.filter fun p => decide (p.user_id = authId)) :=
    (sortPlans_perm _).trans (index_perm_filter db authId)
  constructor
  · rw [mostRecentPlan, List.head?_eq_none_iff]
    constructor
    · intro h
      have hp2 := hperm
      rw [h] at hp2
      exact hp2.symm.eq_nil
    · intro h
      have hp2 := hperm
      rw [h] at hp2
      exact hp2.eq_nil
  · intro p hp
    rcases hl : sortPlansByUpdatedDesc (index db authId) with _ | ⟨h, t⟩
    · rw [mostRecentPlan, hl] at hp
      exact absurd hp (by simp)
    · rw [mostRecentPlan, hl] at hp
      have hph : p = h := by
        have := hp
        simp only [List.head?_cons, Option.some.injEq] at this
        exact this.symm
      subst hph
      have hmem : p ∈ db.plans.filter fun q => decide (q.user_id = authId) :=
        hperm.subset (hl ▸ List.mem_cons_self p t)
      have hmem2 := List.mem_filter.1 hmem
      refine ⟨hmem2.1, by simpa using hmem2.2, ?_⟩
      intro q hq hqu
      have hqmem : q ∈ sortPlansByUpdatedDesc (index db authId) :=
        hperm.symm.subset (List.mem_filter.2 ⟨hq, by simpa using hqu⟩)
      rw [hl] at hqmem
      rcases List.mem_cons.1 hqmem with hqp | hqt
      · exact hqp ▸ le_refl _
      · have hsorted := sortPlans_sorted (index db authId)
        rw [hl, List.sorted_cons] at hsorted
        exact hsorted.1 q hqt

theorem claim_C2_witness :
    mostRecentPlan ⟨[⟨1, 9, "A", "", 0, 5⟩, ⟨2, 9, "B", "", 1, 7⟩,
        ⟨3, 4, "C", "", 2, 9⟩], [], [], 0⟩ 9 = some ⟨2, 9, "B", "", 1, 7⟩ ∧
    (⟨2, 9, "B", "", 1, 7⟩ : MealPlan) ∈
      (⟨[⟨1, 9, "A", "", 0, 5⟩, ⟨2, 9, "B", "", 1, 7⟩, ⟨3, 4, "C", "", 2, 9⟩],
        [], [], 0⟩ : Db).plans ∧
    (⟨2, 9, "B", "", 1, 7⟩ : MealPlan).user_id = 9 :=
  have h := (claim_C2_mostRecentPlan ⟨[⟨1, 9, "A", "", 0, 5⟩, ⟨2, 9, "B", "", 1, 7⟩,
    ⟨3, 4, "C", "", 2, 9⟩], [], [], 0⟩ 9).2 ⟨2, 9, "B", "", 1, 7⟩ (by decide)
  ⟨by decide, h.1, h.2.1⟩

/-! ### Day resolution for a user without plans or tasks (C7) -/

theorem fetchDayData_tasks_eq (db : Db) (authId : Nat) (apiTasks : List Task)
    (dateKey : List Char) (off : Int) :
    (fetchDayData db authId apiTasks dateKey off).tasks =
      apiTasks.filter fun t =>
        match t.deadline with
        | none => false
        | some dl =>
            if dl = [] then false
            else decide (formatDateForComparison dl = formatDateForComparison dateKey) :=
  rfl

/-- Claim C7: `fetchDayData` for a user with no meal plans yields no meal
for any of the four meal times (each slot renders empty), while the task
list is still computed — it depends only on the task response and the
date, not on the plan store — and a user with zero tasks simply gets the
empty collection.  The function is total: no error is raised. -/
theorem claim_C7_resolveDay_empty (db : Db) (authId : Nat) (apiTasks : List Task)
    (dateKey : List Char) (off : Int)
    (hnp : ∀ p ∈ db.plans, p.user_id ≠ authId) :
    (fetchDayData db authId apiTasks dateKey off).meals = [] ∧
    (∀ mt ∈ mealTimes,
      getMealForTime (fetchDayData db authId apiTasks dateKey off).meals mt = none) ∧
    (∀ db2 : Db, (fetchDayData db2 authId apiTasks dateKey off).tasks =
      (fetchDayData db authId apiTasks dateKey off).tasks) ∧
    (apiTasks = [] → (fetchDayData db authId apiTasks dateKey off).tasks = []) := by
  have hfilter : (db.plans.filter fun p => decide (p.user_id = authId)) = [] := by
    rw [List.filter_eq_nil_iff]
    intro p hp
    simpa using hnp p hp
  have hmrp : mostRecentPlan db authId = none := by
    rw [(claim_C2_mostRecentPlan db authId).1]
    exact hfilter
  have hmeals : (fetchDayData db authId apiTasks dateKey off).meals = [] := by
    unfold fetchDayData
    dsimp only
    rw [hmrp]
  refine ⟨hmeals, ?_, ?_, ?_⟩
  · intro mt _
    rw [hmeals]
    rfl
  · intro db2
    rw [fetchDayData_tasks_eq, fetchDayData_tasks_eq]
  · intro h
    rw [fetchDayData_tasks_eq, h]
    rfl

theorem claim_C7_witness :
    (fetchDayData ⟨[⟨1, 4, "A", "", 0, 5⟩], [], [], 0⟩ 9
      [⟨1, 9, none, "t", none, none, false, some (String.toList "2024-03-01")⟩]
      (String.toList "2024-03-01") 0).meals = [] ∧
    getMealForTime (fetchDayData ⟨[⟨1, 4, "A", "", 0, 5⟩], [], [], 0⟩ 9
      [⟨1, 9, none, "t", none, none, false, some (String.toList "2024-03-01")⟩]
      (String.toList "2024-03-01") 0).meals "Breakfast" = none :=
  have h := claim_C7_resolveDay_empty ⟨[⟨1, 4, "A", "", 0, 5⟩], [], [], 0⟩ 9
    [⟨1, 9, none, "t", none, none, false, some (String.toList "2024-03-01")⟩]
    (String.toList "2024-03-01") 0 (by decide)
  ⟨h.1, h.2.1 "Breakfast" (by decide)⟩

/-! ### The slot-store upsert: invariants and lookup behaviour (C1) -/

theorem findSlot_eq (slots : List MealPlanMeal) (planId : Nat) (day : Day)
    (time : MealTime) :
    findSlot slots planId day time = slots.find? (slotKeyP planId day time) :=
  rfl

theorem slotCount_eq (slots : List MealPlanMeal) (planId : Nat) (day : Day)
    (time : MealTime) :
    slotCount slots planId day time = slots.countP (slotKeyP planId day time) :=
  rfl

theorem eq_of_mem_of_id_eq {l : List MealPlanMeal}
    (hl : l.Pairwise fun a b => a.id ≠ b.id) {a b : MealPlanMeal}
    (ha : a ∈ l) (hb : b ∈ l) (hid : a.id = b.id) : a = b := by
  induction l with
  | nil => cases ha
  | cons x xs ih =>
    rw [List.pairwise_cons] at hl
    rcases List.mem_cons.1 ha with rfl | ha2
    · rcases List.mem_cons.1 hb with rfl | hb2
      · rfl
      · exact absurd hid (hl.1 b hb2)
    · rcases List.mem_cons.1 hb with rfl | hb2
      · exact absurd hid.symm (hl.1 a ha2)
      · exact ih hl.2 ha2 hb2

theorem find?_map_update {slots : List MealPlanMeal} {q : MealPlanMeal → Bool}
    {existing updated : MealPlanMeal}
    (hpw : slots.Pairwise fun a b => a.id ≠ b.id)
    (hfind : slots.find? q = some existing)
    (hkey : q updated = true) :
    (slots.map fun s => if s.id = existing.id then updated else s).find? q =
      some updated := by
  induction slots with
  | nil => simp at hfind
  | cons x xs ih =>
    rw [List.pairwise_cons] at hpw
    cases hqx : q x with
    | true =>
      rw [List.find?_cons, hqx] at hfind
      have hx : x = existing := by simpa using hfind
      subst hx
      have hfx : (if x.id = x.id then updated else x) = updated := if_pos rfl
      rw [List.map_cons, hfx, List.find?_cons, hkey]
    | false =>
      rw [List.find?_cons, hqx] at hfind
      have hmem : existing ∈ xs := List.mem_of_find?_eq_some hfind
      have hne : x.id ≠ existing.id := hpw.1 existing hmem
      simp only [List.map_cons, if_neg hne, List.find?_cons, hqx]
      exact ih hpw.2 hfind

theorem find?_map_congr {l : List MealPlanMeal} {f : MealPlanMeal → MealPlanMeal}
    {q : MealPlanMeal → Bool}
    (h : ∀ s ∈ l, q (f s) = q s ∧ (q s = true → f s = s)) :
    (l.map f).find? q = l.find? q := by
  induction l with
  | nil => rfl
  | cons x xs ih =>
    obtain ⟨hq, hfix⟩ := h x (List.mem_cons_self x xs)
    cases hqx : q x with
    | true =>
      rw [List.map_cons, List.find?_cons, List.find?_cons, hq, hqx, hfix hqx]
    | false =>
      rw [List.map_cons, List.find?_cons, List.find?_cons, hq, hqx]
      exact ih fun s hs => h s (List.mem_cons_of_mem x hs)

theorem findSlot_some_props {slots : List MealPlanMeal} {planId : Nat} {day : Day}
    {time : MealTime} {s : MealPlanMeal}
    (h : findSlot slots planId day time = some s) :
    s ∈ slots ∧ s.meal_plan_id = planId ∧ s.day_of_week = day ∧ s.meal_time = time := by
  refine ⟨List.mem_of_find?_eq_some h, ?_⟩
  have := List.find?_some h
  simpa using this

theorem upsertSlot_of_found (db : Db) (planId mealId : Nat) (day : Day)
    (time : MealTime) (now : Nat) (existing : MealPlanMeal)
    (hf : findSlot db.slots planId day time = some existing) :
    upsertSlot db planId mealId day time now =
      ({ db with slots := db.slots.map fun s =>
          if s.id = existing.id then
            { existing with meal_id := mealId, updated_at := now } else s },
        { existing with meal_id := mealId, updated_at := now }) := by
  unfold upsertSlot
  rw [hf]

theorem upsertSlot_of_absent (db : Db) (planId mealId : Nat) (day : Day)
    (time : MealTime) (now : Nat)
    (hf : findSlot db.slots planId day time = none) :
    upsertSlot db planId mealId day time now =
      ({ db with
          slots := db.slots ++ [⟨db.nextSlotId, planId, mealId, day, time, now, now⟩],
          nextSlotId := db.nextSlotId + 1 },
        ⟨db.nextSlotId, planId, mealId, day, time, now, now⟩) := by
  unfold upsertSlot
  rw [hf]

theorem upsertSlot_find_same (db : Db) (planId mealId : Nat) (day : Day)
    (time : MealTime) (now : Nat) (hdb : DbOk db) :
    findSlot (upsertSlot db planId mealId day time now).1.slots planId day time =
      some (upsertSlot db planId mealId day time now).2 ∧
    (upsertSlot db planId mealId day time now).2.meal_id = mealId := by
  cases hf : findSlot db.slots planId day time with
  | some existing =>
    rw [upsertSlot_of_found db planId mealId day time now existing hf]
    obtain ⟨hmem, hpid, hday, htime⟩ := findSlot_some_props hf
    refine ⟨?_, rfl⟩
    exact find?_map_update hdb.2.1 hf (by simp [hpid, hday, htime])
  | none =>
    rw [upsertSlot_of_absent db planId mealId day time now hf]
    refine ⟨?_, rfl⟩
    rw [findSlot_eq, List.find?_append, ← findSlot_eq, hf]
    simp [slotKeyP]

theorem upsertSlot_find_other (db : Db) (planId mealId : Nat) (day : Day)
    (time : MealTime) (now : Nat) (planId' : Nat) (day' : Day) (time' : MealTime)
    (hdb : DbOk db)
    (hne : ¬(planId' = planId ∧ day' = day ∧ time' = time)) :
    findSlot (upsertSlot db planId mealId day time now).1.slots planId' day' time' =
      findSlot db.slots planId' day' time' := by
  cases hf : findSlot db.slots planId day time with
  | some existing =>
    rw [upsertSlot_of_found db planId mealId day time now existing hf]
    obtain ⟨hmem, hpid, hday, htime⟩ := findSlot_some_props hf
    apply find?_map_congr
    intro s hs
    by_cases hid : s.id = existing.id
    · have hse : s = existing := eq_of_mem_of_id_eq hdb.2.1 hs hmem hid
      subst hse
      constructor
      · simp [hid]
      · intro hqs
        have : s.meal_plan_id = planId' ∧ s.day_of_week = day' ∧ s.meal_time = time' := by
          simpa using hqs
        exact absurd ⟨by rw [← this.1, hpid], by rw [← this.2.1, hday],
          by rw [← this.2.2, htime]⟩ hne
    · constructor
      · rw [if_neg hid]
      · intro _
        rw [if_neg hid]
  | none =>
    rw [upsertSlot_of_absent db planId mealId day time now hf]
    rw [findSlot_eq, List.find?_append, ← findSlot_eq]
    have hc : List.find? (slotKeyP planId' day' time')
        [(⟨db.nextSlotId, planId, mealId, day, time, now, now⟩ : MealPlanMeal)] = none := by
      simp only [List.find?_cons, List.find?_nil]
      have : slotKeyP planId' day' time'
          (⟨db.nextSlotId, planId, mealId, day, time, now, now⟩ : MealPlanMeal) = false := by
        simp only [slotKeyP, decide_eq_false_iff_not]
        intro hcontra
        exact hne ⟨hcontra.1.symm, hcontra.2.1.symm, hcontra.2.2.symm⟩
      rw [this]
    rw [hc, Option.or_none]

theorem upsertSlot_count_found (db : Db) (planId mealId : Nat) (day : Day)
    (time : MealTime) (now : Nat) (existing : MealPlanMeal)
    (planId' : Nat) (day' : Day) (time' : MealTime) (hdb : DbOk db)
    (hf : findSlot db.slots planId day time = some existing) :
    slotCount (upsertSlot db planId mealId day time now).1.slots planId' day' time' =
      slotCount db.slots planId' day' time' := by
  rw [upsertSlot_of_found db planId mealId day time now existing hf]
  obtain ⟨hmem, hpid, hday, htime⟩ := findSlot_some_props hf
  rw [slotCount_eq, slotCount_eq]
  dsimp only
  rw [List.countP_map]
  apply List.countP_congr
  intro s hs
  by_cases hid : s.id = existing.id
  · have hse : s = existing := eq_of_mem_of_id_eq hdb.2.1 hs hmem hid
    subst hse
    simp [Function.comp, hid, slotKeyP]
  · simp [Function.comp, hid]

theorem slotCount_eq_zero_of_find_none {slots : List MealPlanMeal} {planId : Nat}
    {day : Day} {time : MealTime}
    (hf : findSlot slots planId day time = none) :
    slotCount slots planId day time = 0 := by
  rw [slotCount_eq]
  rw [findSlot_eq, List.find?_eq_none] at hf
  rw [List.countP_eq_zero]
  exact hf

theorem slotCount_pos_of_find_some {slots : List MealPlanMeal} {planId : Nat}
    {day : Day} {time : MealTime} {s : MealPlanMeal}
    (hf : findSlot slots planId day time = some s) :
    1 ≤ slotCount slots planId day time := by
  rw [slotCount_eq]
  have hpos : 0 < List.countP (slotKeyP planId day time) slots :=
    List.countP_pos_iff.2 ⟨s, List.mem_of_find?_eq_some hf, List.find?_some hf⟩
  omega

theorem upsertSlot_count_absent (db : Db) (planId mealId : Nat) (day : Day)
    (time : MealTime) (now : Nat) (planId' : Nat) (day' : Day) (time' : MealTime)
    (hf : findSlot db.slots planId day time = none) :
    slotCount (upsertSlot db planId mealId day time now).1.slots planId' day' time' =
      slotCount db.slots planId' day' time' +
        (if planId = planId' ∧ day = day' ∧ time = time' then 1 else 0) := by
  rw [upsertSlot_of_absent db planId mealId day time now hf]
  rw [slotCount_eq, slotCount_eq]
  dsimp only
  rw [List.countP_append]
  congr 1
  simp only [List.countP_cons, List.countP_nil, slotKeyP]
  by_cases h : planId = planId' ∧ day = day' ∧ time = time'
  · rw [if_pos h]
    rw [if_pos (by simpa using ⟨h.1, h.2.1, h.2.2⟩)]
  · rw [if_neg h]
    rw [if_neg (by simp only [decide_eq_true_eq]; intro hcontra; exact h hcontra)]

theorem upsertSlot_DbOk (db : Db) (planId mealId : Nat) (day : Day)
    (time : MealTime) (now : Nat) (hdb : DbOk db) :
    DbOk (upsertSlot db planId mealId day time now).1 := by
  obtain ⟨huniq, hpw, hbound⟩ := hdb
  cases hf : findSlot db.slots planId day time with
  | some existing =>
    refine ⟨?_, ?_, ?_⟩
    · intro planId' day' time'
      rw [upsertSlot_count_found db planId mealId day time now existing planId' day'
        time' ⟨huniq, hpw, hbound⟩ hf]
      exact huniq planId' day' time'
    · rw [upsertSlot_of_found db planId mealId day time now existing hf]
      exact List.Pairwise.map _ (fun a b hab => by
        by_cases ha : a.id = existing.id <;> by_cases hb : b.id = existing.id <;>
          simp [ha, hb] <;> omega) hpw
    · rw [upsertSlot_of_found db planId mealId day time now existing hf]
      intro s hs
      obtain ⟨s₀, hs₀, rfl⟩ := List.mem_map.1 hs
      show (if s₀.id = existing.id then
        { existing with meal_id := mealId, updated_at := now } else s₀).id < db.nextSlotId
      by_cases h0 : s₀.id = existing.id
      · rw [if_pos h0]
        show existing.id < db.nextSlotId
        exact hbound existing (findSlot_some_props hf).1
      · rw [if_neg h0]
        exact hbound s₀ hs₀
  | none =>
    refine ⟨?_, ?_, ?_⟩
    · intro planId' day' time'
      rw [upsertSlot_count_absent db planId mealId day time now planId' day' time' hf]
      by_cases h : planId = planId' ∧ day = day' ∧ time = time'
      · rw [if_pos h]
        have : slotCount db.slots planId' day' time' = 0 := by
          have := slotCount_eq_zero_of_find_none hf
          rw [← h.1, ← h.2.1, ← h.2.2]
          exact this
        omega
      · rw [if_neg h]
        have := huniq planId' day' time'
        omega
    · rw [upsertSlot_of_absent db planId mealId day time now hf]
      rw [List.pairwise_append]
      refine ⟨hpw, List.pairwise_singleton _ _, ?_⟩
      intro a ha b hb
      have hb2 : b = (⟨db.nextSlotId, planId, mealId, day, time, now, now⟩ : MealPlanMeal) := by
        simpa using hb
      subst hb2
      show a.id ≠ db.nextSlotId
      have := hbound a ha
      omega
    · rw [upsertSlot_of_absent db planId mealId day time now hf]
      intro s hs
      rcases List.mem_append.1 hs with hs2 | hs2
      · show s.id < db.nextSlotId + 1
        have := hbound s hs2
        omega
      · have hs3 : s = (⟨db.nextSlotId, planId, mealId, day, time, now, now⟩ : MealPlanMeal) := by
          simpa using hs2
        subst hs3
        show db.nextSlotId < db.nextSlotId + 1
        omega

theorem upsertSlot_plans_meals (db : Db) (planId mealId : Nat) (day : Day)
    (time : MealTime) (now : Nat) :
    (upsertSlot db planId mealId day time now).1.plans = db.plans ∧
    (upsertSlot db planId mealId day time now).1.meals = db.meals := by
  cases hf : findSlot db.slots planId day time with
  | some existing =>
    rw [upsertSlot_of_found db planId mealId day time now existing hf]
    exact ⟨rfl, rfl⟩
  | none =>
    rw [upsertSlot_of_absent db planId mealId day time now hf]
    exact ⟨rfl, rfl⟩

theorem addMeal_state_cases (db : Db) (authId planId : Nat) (req : AddMealRequest)
    (now : Nat) :
    (addMeal db authId planId req now).1 = db ∨
    ∃ day time, parseDay req.day_of_week = some day ∧
      parseMealTime req.meal_time = some time ∧
      (addMeal db authId planId req now).1 =
        (upsertSlot db planId req.meal_id day time now).1 := by
  cases hd : parseDay req.day_of_week with
  | none =>
    left
    unfold addMeal
    rw [hd]
  | some day =>
    cases ht : parseMealTime req.meal_time with
    | none =>
      left
      unfold addMeal
      rw [hd, ht]
    | some time =>
      by_cases hm : req.meal_id ∈ db.meals
      · cases hfind : db.plans.find? fun p =>
            decide (p.id = planId ∧ p.user_id = authId) with
        | none =>
          left
          rw [addMeal_valid_notfound db authId planId req now day time hd ht hm hfind]
        | some p =>
          right
          refine ⟨day, time, rfl, rfl, ?_⟩
          rw [addMeal_valid_found db authId planId req now day time p hd ht hm hfind]
      · left
        rw [addMeal_no_meal db authId planId req now day time hd ht hm]

theorem addMeal_DbOk (db : Db) (authId planId : Nat) (req : AddMealRequest)
    (now : Nat) (hdb : DbOk db) : DbOk (addMeal db authId planId req now).1 := by
  rcases addMeal_state_cases db authId planId req now with h | ⟨day, time, _, _, h⟩
  · rw [h]
    exact hdb
  · rw [h]
    exact upsertSlot_DbOk db planId req.meal_id day time now hdb

theorem addMeal_plans_meals (db : Db) (authId planId : Nat) (req : AddMealRequest)
    (now : Nat) :
    (addMeal db authId planId req now).1.plans = db.plans ∧
    (addMeal db authId planId req now).1.meals = db.meals := by
  rcases addMeal_state_cases db authId planId req now with h | ⟨day, time, _, _, h⟩
  · rw [h]
    exact ⟨rfl, rfl⟩
  · rw [h]
    exact upsertSlot_plans_meals db planId req.meal_id day time now

theorem runAddMeals_nil (db : Db) (authId : Nat) : runAddMeals db authId [] = db :=
  rfl

theorem runAddMeals_append_one (db : Db) (authId : Nat) (cs : List AddCall)
    (c : AddCall) :
    runAddMeals db authId (cs ++ [c]) =
      (addMeal (runAddMeals db authId cs) authId c.planId c.req c.now).1 := by
  unfold runAddMeals
  rw [List.foldl_append]
  rfl

theorem runAddMeals_DbOk (db : Db) (authId : Nat) (calls : List AddCall)
    (hdb : DbOk db) : DbOk (runAddMeals db authId calls) := by
  induction calls generalizing db with
  | nil => exact hdb
  | cons c cs ih =>
    exact ih _ (addMeal_DbOk db authId c.planId c.req c.now hdb)

theorem runAddMeals_plans_meals (db : Db) (authId : Nat) (calls : List AddCall) :
    (runAddMeals db authId calls).plans = db.plans ∧
    (runAddMeals db authId calls).meals = db.meals := by
  induction calls generalizing db with
  | nil => exact ⟨rfl, rfl⟩
  | cons c cs ih =>
    have h1 := addMeal_plans_meals db authId c.planId c.req c.now
    have h2 := ih (addMeal db authId c.planId c.req c.now).1
    exact ⟨h2.1.trans h1.1, h2.2.trans h1.2⟩

theorem addMeal_of_validCall (db : Db) (authId : Nat) (c : AddCall) (day : Day)
    (time : MealTime) (hday : parseDay c.req.day_of_week = some day)
    (htime : parseMealTime c.req.meal_time = some time)
    (hv : ValidCall db authId c) :
    (addMeal db authId c.planId c.req c.now).1 =
      (upsertSlot db c.planId c.req.meal_id day time c.now).1 := by
  obtain ⟨_, _, hmeal, p, hp, hpid, hpuser⟩ := hv
  have hsome : (db.plans.find? fun q =>
      decide (q.id = c.planId ∧ q.user_id = authId)).isSome := by
    rw [List.find?_isSome]
    exact ⟨p, hp, by simp [hpid, hpuser]⟩
  obtain ⟨pf, hpf⟩ := Option.isSome_iff_exists.1 hsome
  rw [addMeal_valid_found db authId c.planId c.req c.now day time pf hday htime hmeal hpf]

/-- Claim C1: starting from a well-formed store, any sequence of successful
`addMeal` (`upsertSlot`) calls leaves at most one slot row per
(plan, day, time) triple; the triple's meal reference equals the `meal_id`
of the last call that targeted it; and an upsert on an occupied triple
rewrites the existing row in place — same row count, same row id — rather
than creating a duplicate. -/
theorem claim_C1_upsert_uniqueness (db : Db) (authId : Nat) (calls : List AddCall)
    (hdb : DbOk db) (hvalid : ∀ c ∈ calls, ValidCall db authId c) :
    slotsUnique (runAddMeals db authId calls).slots ∧
    (∀ planId day time c, lastCallFor planId day time calls = some c →
      ∃ s, findSlot (runAddMeals db authId calls).slots planId day time = some s ∧
        s.meal_id = c.req.meal_id) ∧
    (∀ planId day time s mealId now2, findSlot db.slots planId day time = some s →
      (upsertSlot db planId mealId day time now2).1.slots.length = db.slots.length ∧
      (upsertSlot db planId mealId day time now2).2.id = s.id) := by
  refine ⟨(runAddMeals_DbOk db authId calls hdb).1, ?_, ?_⟩
  · induction calls using List.reverseRecOn with
    | nil =>
      intro planId day time c hlast
      simp [lastCallFor] at hlast
    | append_singleton cs c ih =>
      intro planId day time c' hlast
      have hvcs : ∀ x ∈ cs, ValidCall db authId x := fun x hx =>
        hvalid x (List.mem_append.2 (Or.inl hx))
      have hvc : ValidCall db authId c :=
        hvalid c (List.mem_append.2 (Or.inr (List.mem_singleton_self c)))
      have hdb1 : DbOk (runAddMeals db authId cs) := runAddMeals_DbOk db authId cs hdb
      have hpm := runAddMeals_plans_meals db authId cs
      have hvc1 : ValidCall (runAddMeals db authId cs) authId c := by
        obtain ⟨h1, h2, h3, h4⟩ := hvc
        exact ⟨h1, h2, by rw [hpm.2]; exact h3, by rw [hpm.1]; exact h4⟩
      rw [runAddMeals_append_one]
      unfold lastCallFor at hlast
      rw [List.filter_append] at hlast
      by_cases hc : c.planId = planId ∧ parseDay c.req.day_of_week = some day ∧
          parseMealTime c.req.meal_time = some time
      · have hfc : List.filter (fun x => decide (x.planId = planId ∧
            parseDay x.req.day_of_week = some day ∧
            parseMealTime x.req.meal_time = some time)) [c] = [c] := by
          rw [List.filter_cons, if_pos (decide_eq_true hc)]
          rfl
        rw [hfc, List.getLast?_concat] at hlast
        have hcc : c' = c := by simpa using hlast.symm
        subst hcc
        rw [addMeal_of_validCall (runAddMeals db authId cs) authId c' day time
          hc.2.1 hc.2.2 hvc1]
        rw [hc.1]
        have := upsertSlot_find_same (runAddMeals db authId cs) planId
          c'.req.meal_id day time c'.now hdb1
        exact ⟨_, this.1, this.2⟩
      · have hfc : List.filter (fun x => decide (x.planId = planId ∧
            parseDay x.req.day_of_week = some day ∧
            parseMealTime x.req.meal_time = some time)) [c] = [] := by
          rw [List.filter_cons,
            if_neg (by simp only [decide_eq_true_eq]; exact hc)]
          rfl
        rw [hfc, List.append_nil] at hlast
        have hih := ih hvcs planId day time c' hlast
        obtain ⟨s, hfs, hms⟩ := hih
        rcases addMeal_state_cases (runAddMeals db authId cs) authId c.planId c.req
            c.now with h | ⟨dayc, timec, hdc, htc, h⟩
        · rw [h]
          exact ⟨s, hfs, hms⟩
        · rw [h]
          rw [upsertSlot_find_other (runAddMeals db authId cs) c.planId c.req.meal_id
            dayc timec c.now planId day time hdb1 ?_]
          · exact ⟨s, hfs, hms⟩
          · intro hcontra
            exact hc ⟨hcontra.1.symm, by rw [hdc, hcontra.2.1],
              by rw [htc, hcontra.2.2]⟩
  · intro planId day time s mealId now2 hf
    rw [upsertSlot_of_found db planId mealId day time now2 s hf]
    exact ⟨List.length_map _ _, rfl⟩

theorem claim_C1_witness :
    DbOk ⟨[⟨1, 9, "Plan", "", 0, 0⟩], [7, 8], [], 0⟩ ∧
    lastCallFor 1 Day.monday MealTime.lunch
      [⟨1, ⟨7, "Monday", "Lunch"⟩, 5⟩, ⟨1, ⟨8, "Monday", "Lunch"⟩, 6⟩] =
      some ⟨1, ⟨8, "Monday", "Lunch"⟩, 6⟩ ∧
    (∃ s, findSlot (runAddMeals ⟨[⟨1, 9, "Plan", "", 0, 0⟩], [7, 8], [], 0⟩ 9
        [⟨1, ⟨7, "Monday", "Lunch"⟩, 5⟩, ⟨1, ⟨8, "Monday", "Lunch"⟩, 6⟩]).slots
        1 Day.monday MealTime.lunch = some s ∧ s.meal_id = 8) := by
  have hdb0 : DbOk ⟨[⟨1, 9, "Plan", "", 0, 0⟩], [7, 8], [], 0⟩ := by
    refine ⟨?_, ?_, ?_⟩
    · intro planId day time
      simp [slotCount]
    · exact List.Pairwise.nil
    · intro s hs
      exact absurd hs (List.not_mem_nil s)
  have hvalid : ∀ c ∈ [(⟨1, ⟨7, "Monday", "Lunch"⟩, 5⟩ : AddCall),
      ⟨1, ⟨8, "Monday", "Lunch"⟩, 6⟩],
      ValidCall ⟨[⟨1, 9, "Plan", "", 0, 0⟩], [7, 8], [], 0⟩ 9 c := by
    intro c hc
    fin_cases hc
    · exact ⟨⟨Day.monday, rfl⟩, ⟨MealTime.lunch, rfl⟩, by decide,
        ⟨1, 9, "Plan", "", 0, 0⟩, by decide, rfl, rfl⟩
    · exact ⟨⟨Day.monday, rfl⟩, ⟨MealTime.lunch, rfl⟩, by decide,
        ⟨1, 9, "Plan", "", 0, 0⟩, by decide, rfl, rfl⟩
  exact ⟨hdb0, by decide,
    (claim_C1_upsert_uniqueness ⟨[⟨1, 9, "Plan", "", 0, 0⟩], [7, 8], [], 0⟩ 9
      [⟨1, ⟨7, "Monday", "Lunch"⟩, 5⟩, ⟨1, ⟨8, "Monday", "Lunch"⟩, 6⟩] hdb0 hvalid).2.1
      1 Day.monday MealTime.lunch ⟨1, ⟨8, "Monday", "Lunch"⟩, 6⟩ (by decide)⟩

/-! ### The repeat-for-all-days directive (C4, C5) -/

theorem slots_filter_time_length (slots : List MealPlanMeal) (planId : Nat)
    (time : MealTime) :
    (slots.filter fun s => decide (s.meal_plan_id = planId ∧ s.meal_time = time)).length =
      slotCount slots planId .monday time + slotCount slots planId .tuesday time +
      slotCount slots planId .wednesday time + slotCount slots planId .thursday time +
      slotCount slots planId .friday time + slotCount slots planId .saturday time +
      slotCount slots planId .sunday time := by
  induction slots with
  | nil => rfl
  | cons x xs ih =>
    rw [List.filter_cons]
    by_cases hpt : x.meal_plan_id = planId ∧ x.meal_time = time
    · rw [if_pos (decide_eq_true hpt), List.length_cons, ih]
      have hcnt : ∀ d : Day, slotCount (x :: xs) planId d time =
          slotCount xs planId d time + (if x.day_of_week = d then 1 else 0) := by
        intro d
        simp only [slotCount, List.countP_cons]
        congr 1
        by_cases hd : x.day_of_week = d
        · rw [if_pos hd, if_pos (decide_eq_true ⟨hpt.1, hd, hpt.2⟩)]
        · rw [if_neg hd, if_neg (by
            simp only [decide_eq_true_eq]
            intro hco
            exact hd hco.2.1)]
      rw [hcnt .monday, hcnt .tuesday, hcnt .wednesday, hcnt .thursday,
        hcnt .friday, hcnt .saturday, hcnt .sunday]
      cases hxd : x.day_of_week <;> simp only [hxd] <;>
        simp only [reduceCtorEq, if_true, if_false, ite_true, ite_false,
          reduceIte] <;> omega
    · rw [if_neg (by
        simp only [decide_eq_true_eq]
        exact hpt), ih]
      have hcnt0 : ∀ d : Day, slotCount (x :: xs) planId d time =
          slotCount xs planId d time := by
        intro d
        simp only [slotCount, List.countP_cons]
        rw [if_neg (by
          simp only [decide_eq_true_eq]
          intro hco
          exact hpt ⟨hco.1, hco.2.2⟩)]
        omega
      rw [hcnt0 .monday, hcnt0 .tuesday, hcnt0 .wednesday, hcnt0 .thursday,
        hcnt0 .friday, hcnt0 .saturday, hcnt0 .sunday]

theorem repeatLoop_oracle (authId planId mealId : Nat) (timeStr : String)
    (time : MealTime) (now : Nat) (failAt : String → Bool) (days : List String)
    (db : Db)
    (htime : parseMealTime timeStr = some time)
    (hmeal : mealId ∈ db.meals)
    (hplan : ∃ p ∈ db.plans, p.id = planId ∧ p.user_id = authId)
    (hdays : ∀ d ∈ days, parseDay d ≠ none) :
    repeatLoop authId planId mealId timeStr now failAt days db =
      (runAddMeals db authId (mkRepeatCalls planId mealId timeStr now
        (days.takeWhile fun d => !failAt d)),
       days.all fun d => !failAt d) := by
  induction days generalizing db with
  | nil => rfl
  | cons d ds ih =>
    have hd := hdays d (List.mem_cons_self d ds)
    have hday : ∃ day, parseDay d = some day := by
      cases hpd : parseDay d with
      | none => exact absurd hpd hd
      | some day => exact ⟨day, rfl⟩
    obtain ⟨day, hday⟩ := hday
    cases hf : failAt d with
    | true =>
      simp only [repeatLoop, hf, List.takeWhile_cons, Bool.not_true, ite_true,
        ite_false, List.all_cons, Bool.false_and]
      rfl
    | false =>
      obtain ⟨p, hp, hpid, hpuser⟩ := hplan
      have hsome : (db.plans.find? fun q =>
          decide (q.id = planId ∧ q.user_id = authId)).isSome := by
        rw [List.find?_isSome]
        exact ⟨p, hp, by simp [hpid, hpuser]⟩
      obtain ⟨pf, hpf⟩ := Option.isSome_iff_exists.1 hsome
      have hstep : addMeal db authId planId ⟨mealId, d, timeStr⟩ now =
          ((upsertSlot db planId mealId day time now).1,
            Except.ok (upsertSlot db planId mealId day time now).2) :=
        addMeal_valid_found db authId planId ⟨mealId, d, timeStr⟩ now
          day time pf hday htime hmeal hpf
      simp only [repeatLoop, hf, ite_false, Bool.false_eq_true]
      rw [hstep]
      dsimp only
      have hpm := upsertSlot_plans_meals db planId mealId day time now
      have ihx := ih (upsertSlot db planId mealId day time now).1
        (by rw [hpm.2]; exact hmeal)
        ⟨p, by rw [hpm.1]; exact hp, hpid, hpuser⟩
        (fun x hx => hdays x (List.mem_cons_of_mem d hx))
      rw [ihx]
      simp only [List.takeWhile_cons, hf, Bool.not_false, ite_true, List.all_cons,
        Bool.true_and]
      have hrun : runAddMeals db authId (mkRepeatCalls planId mealId timeStr now
          (d :: List.takeWhile (fun x => !failAt x) ds)) =
          runAddMeals (addMeal db authId planId ⟨mealId, d, timeStr⟩ now).1 authId
            (mkRepeatCalls planId mealId timeStr now
              (List.takeWhile (fun x => !failAt x) ds)) := rfl
      rw [hrun, hstep]

/-- Claim C4: `handleAddMealToSlot` with the repeat directive applies the
single-slot upsert once per day of the fixed Monday→Sunday `daysOfWeek`
list; when all seven requests succeed the alert is the success message and
the store ends with exactly 7 slots for that (plan, meal-time) — one per
day of the week, each referencing the assigned meal — previously occupied
day slots having been overwritten in place rather than duplicated. -/
theorem claim_C4_repeat_all_days (db : Db) (authId planId mealId : Nat)
    (mealName selectedDay timeStr : String) (time : MealTime) (now : Nat)
    (htime : parseMealTime timeStr = some time)
    (hdb : DbOk db) (hmeal : mealId ∈ db.meals)
    (hplan : ∃ p ∈ db.plans, p.id = planId ∧ p.user_id = authId) :
    (handleAddMealToSlot db authId planId mealId mealName selectedDay timeStr
        true now fun _ => false).2 =
      .success (mealName ++ " added to " ++ timeStr ++ " for all days!") ∧
    (∀ day : Day, ∃ s, findSlot (handleAddMealToSlot db authId planId mealId
        mealName selectedDay timeStr true now fun _ => false).1.slots
        planId day time = some s ∧ s.meal_id = mealId) ∧
    ((handleAddMealToSlot db authId planId mealId mealName selectedDay timeStr
        true now fun _ => false).1.slots.filter fun s =>
        decide (s.meal_plan_id = planId ∧ s.meal_time = time)).length = 7 := by
  have hloop := repeatLoop_oracle authId planId mealId timeStr time now
    (fun _ => false) daysOfWeek db htime hmeal hplan (by decide)
  have htw : (daysOfWeek.takeWhile fun d => !(fun _ => false) d) = daysOfWeek := rfl
  have hall : (daysOfWeek.all fun d => !(fun _ => false) d) = true := rfl
  rw [htw, hall] at hloop
  have hres : handleAddMealToSlot db authId planId mealId mealName selectedDay
      timeStr true now (fun _ => false) =
      (runAddMeals db authId (mkRepeatCalls planId mealId timeStr now daysOfWeek),
        .success (mealName ++ " added to " ++ timeStr ++ " for all days!")) := by
    unfold handleAddMealToSlot
    rw [if_pos rfl, hloop]
  rw [hres]
  have hvalid7 : ∀ c ∈ mkRepeatCalls planId mealId timeStr now daysOfWeek,
      ValidCall db authId c := by
    intro c hc
    simp only [mkRepeatCalls, List.mem_map] at hc
    obtain ⟨d, hd, rfl⟩ := hc
    refine ⟨?_, ⟨time, htime⟩, hmeal, hplan⟩
    fin_cases hd
    · exact ⟨Day.monday, rfl⟩
    · exact ⟨Day.tuesday, rfl⟩
    · exact ⟨Day.wednesday, rfl⟩
    · exact ⟨Day.thursday, rfl⟩
    · exact ⟨Day.friday, rfl⟩
    · exact ⟨Day.saturday, rfl⟩
    · exact ⟨Day.sunday, rfl⟩
  have hC1 := claim_C1_upsert_uniqueness db authId
    (mkRepeatCalls planId mealId timeStr now daysOfWeek) hdb hvalid7
  have hfind : ∀ day : Day, ∃ s, findSlot (runAddMeals db authId
      (mkRepeatCalls planId mealId timeStr now daysOfWeek)).slots planId day time =
      some s ∧ s.meal_id = mealId := by
    intro day
    have hlast : lastCallFor planId day time
        (mkRepeatCalls planId mealId timeStr now daysOfWeek) =
        some ⟨planId, ⟨mealId, dayName day, timeStr⟩, now⟩ := by
      cases day <;>
        simp [lastCallFor, mkRepeatCalls, daysOfWeek, parseDay, htime, dayName]
    exact hC1.2.1 planId day time ⟨planId, ⟨mealId, dayName day, timeStr⟩, now⟩ hlast
  refine ⟨rfl, hfind, ?_⟩
  rw [slots_filter_time_length]
  have hone : ∀ day : Day, slotCount (runAddMeals db authId
      (mkRepeatCalls planId mealId timeStr now daysOfWeek)).slots planId day time = 1 := by
    intro day
    obtain ⟨s, hs, _⟩ := hfind day
    have h1 := slotCount_pos_of_find_some hs
    have h2 := hC1.1 planId day time
    omega
  rw [hone .monday, hone .tuesday, hone .wednesday, hone .thursday, hone .friday,
    hone .saturday, hone .sunday]

theorem claim_C4_witness :
    parseMealTime "Lunch" = some MealTime.lunch ∧
    (handleAddMealToSlot ⟨[⟨1, 9, "Plan", "", 0, 0⟩], [7], [], 0⟩ 9 1 7 "Oats"
        "Monday" "Lunch" true 5 fun _ => false).2 =
      .success ("Oats" ++ " added to " ++ "Lunch" ++ " for all days!") ∧
    ((handleAddMealToSlot ⟨[⟨1, 9, "Plan", "", 0, 0⟩], [7], [], 0⟩ 9 1 7 "Oats"
        "Monday" "Lunch" true 5 fun _ => false).1.slots.filter fun s =>
        decide (s.meal_plan_id = 1 ∧ s.meal_time = MealTime.lunch)).length = 7 := by
  have hdb0 : DbOk ⟨[⟨1, 9, "Plan", "", 0, 0⟩], [7], [], 0⟩ := by
    refine ⟨?_, ?_, ?_⟩
    · intro planId day time
      simp [slotCount]
    · exact List.Pairwise.nil
    · intro s hs
      exact absurd hs (List.not_mem_nil s)
  have h := claim_C4_repeat_all_days ⟨[⟨1, 9, "Plan", "", 0, 0⟩], [7], [], 0⟩ 9 1 7
    "Oats" "Monday" "Lunch" MealTime.lunch 5 rfl hdb0 (by decide)
    ⟨⟨1, 9, "Plan", "", 0, 0⟩, by decide, rfl, rfl⟩
  exact ⟨rfl, h.1, h.2.2⟩

/-- Claim C5 (counterexample): a repeat-for-all-days batch that fails at the
4th day commits the first three upserts, but the outcome the client
surfaces is the same single generic alert `'Failed to add meal to plan'`
surfaced when the batch fails at the 1st day with nothing committed — the
caller receives no per-item partial-success report counting succeeded
versus failed items. -/
theorem claim_C5_counterexample :
    (handleAddMealToSlot ⟨[⟨1, 9, "Plan", "", 0, 0⟩], [7], [], 0⟩ 9 1 7 "Oats"
      "Monday" "Lunch" true 5 fun d => d == "Thursday").2 =
      AlertOutcome.failure "Failed to add meal to plan" ∧
    (handleAddMealToSlot ⟨[⟨1, 9, "Plan", "", 0, 0⟩], [7], [], 0⟩ 9 1 7 "Oats"
      "Monday" "Lunch" true 5 fun d => d == "Monday").2 =
      AlertOutcome.failure "Failed to add meal to plan" ∧
    (handleAddMealToSlot ⟨[⟨1, 9, "Plan", "", 0, 0⟩], [7], [], 0⟩ 9 1 7 "Oats"
      "Monday" "Lunch" true 5 fun d => d == "Thursday").2 =
      (handleAddMealToSlot ⟨[⟨1, 9, "Plan", "", 0, 0⟩], [7], [], 0⟩ 9 1 7 "Oats"
        "Monday" "Lunch" true 5 fun d => d == "Monday").2 ∧
    (handleAddMealToSlot ⟨[⟨1, 9, "Plan", "", 0, 0⟩], [7], [], 0⟩ 9 1 7 "Oats"
      "Monday" "Lunch" true 5 fun d => d == "Thursday").1.slots.length = 3 ∧
    (handleAddMealToSlot ⟨[⟨1, 9, "Plan", "", 0, 0⟩], [7], [], 0⟩ 9 1 7 "Oats"
      "Monday" "Lunch" true 5 fun d => d == "Monday").1.slots.length = 0 := by
  decide

/-- Claim C5 (amended): when the repeat batch's k-th request fails, the
upserts for the earlier days remain committed (the batch is not
transactional) and the remaining days are not attempted; the outcome is
surfaced to the caller as the single generic failure alert
`'Failed to add meal to plan'`, which carries no count of succeeded versus
failed items. -/
theorem claim_C5_amended_partial_failure (db : Db) (authId planId mealId : Nat)
    (mealName selectedDay timeStr : String) (time : MealTime) (now : Nat) (k : Nat)
    (hk : k < 7)
    (htime : parseMealTime timeStr = some time)
    (hmeal : mealId ∈ db.meals)
    (hplan : ∃ p ∈ db.plans, p.id = planId ∧ p.user_id = authId) :
    handleAddMealToSlot db authId planId mealId mealName selectedDay timeStr true
        now (fun d => d == daysOfWeek.getD k "") =
      (runAddMeals db authId
        (mkRepeatCalls planId mealId timeStr now (daysOfWeek.take k)),
       .failure "Failed to add meal to plan") := by
  have hloop := repeatLoop_oracle authId planId mealId timeStr time now
    (fun d => d == daysOfWeek.getD k "") daysOfWeek db htime hmeal hplan (by decide)
  have htw : (daysOfWeek.takeWhile fun d => !(fun x => x == daysOfWeek.getD k "") d) =
      daysOfWeek.take k := by
    interval_cases k <;> rfl
  have hall : (daysOfWeek.all fun d => !(fun x => x == daysOfWeek.getD k "") d) =
      false := by
    interval_cases k <;> rfl
  rw [htw, hall] at hloop
  unfold handleAddMealToSlot
  rw [if_pos rfl, hloop]

theorem claim_C5_amended_witness :
    handleAddMealToSlot ⟨[⟨1, 9, "Plan", "", 0, 0⟩], [7], [], 0⟩ 9 1 7 "Oats"
        "Monday" "Lunch" true 5 (fun d => d == daysOfWeek.getD 3 "") =
      (runAddMeals ⟨[⟨1, 9, "Plan", "", 0, 0⟩], [7], [], 0⟩ 9
        (mkRepeatCalls 1 7 "Lunch" 5 (daysOfWeek.take 3)),
       .failure "Failed to add meal to plan") :=
  claim_C5_amended_partial_failure ⟨[⟨1, 9, "Plan", "", 0, 0⟩], [7], [], 0⟩ 9 1 7
    "Oats" "Monday" "Lunch" MealTime.lunch 5 3 (by decide) rfl (by decide)
    ⟨⟨1, 9, "Plan", "", 0, 0⟩, by decide, rfl, rfl⟩


/-! ### Timezone-independent calendar arithmetic: the civil round-trip

`formatDateForComparison` runs a date through the JS `Date` normalization
(`daysFromCivil` then `civilFromDays`); on valid calendar dates this is the
identity (Hinnant's algorithms).  The year-of-era recovery is the delicate
step and is proved by exhausting the 400-year era. -/

set_option maxHeartbeats 2000000 in
theorem yoe_recover (yoe doy doe : Int)
    (h1 : 0 ≤ yoe) (h2 : yoe ≤ 399) (h3 : 0 ≤ doy)
    (hleap : doy ≤ 364 +
      (if ((yoe + 1) % 4 = 0 ∧ (yoe + 1) % 100 ≠ 0) ∨ (yoe + 1) % 400 = 0
        then 1 else 0))
    (hdoe : doe = yoe * 365 + yoe / 4 - yoe / 100 + doy) :
    (doe - doe / 1460 + doe / 36524 - doe / 146096) / 365 = yoe := by
  interval_cases yoe <;> split_ifs at hleap <;> omega

theorem civilFromDays_eval (era doe yoe doy : Int)
    (h1 : 0 ≤ doe) (h2 : doe ≤ 146096)
    (hyoe : (doe - doe / 1460 + doe / 36524 - doe / 146096) / 365 = yoe)
    (hdoy : doe - (365 * yoe + yoe / 4 - yoe / 100) = doy) :
    civilFromDays (era * 146097 + doe - 719468) =
      (if (5 * doy + 2) / 153 + (if (5 * doy + 2) / 153 < 10 then 3 else -9) ≤ 2
        then yoe + era * 400 + 1 else yoe + era * 400,
       (5 * doy + 2) / 153 + (if (5 * doy + 2) / 153 < 10 then 3 else -9),
       doy - (153 * ((5 * doy + 2) / 153) + 2) / 5 + 1) := by
  simp only [civilFromDays]
  have hz : era * 146097 + doe - 719468 + 719468 = era * 146097 + doe := by omega
  rw [hz]
  have hera : (era * 146097 + doe) / 146097 = era := by omega
  rw [hera]
  have hdoe2 : era * 146097 + doe - era * 146097 = doe := by omega
  rw [hdoe2, hyoe, hdoy]

theorem roundtrip_core (y m d y2 era yoe mp doy doe : Int)
    (hm1 : 1 ≤ m) (hm2 : m ≤ 12) (hd1 : 1 ≤ d) (hd2 : d ≤ daysInMonth y m)
    (hy2 : y2 = if m ≤ 2 then y - 1 else y)
    (hera : era = y2 / 400)
    (hyoe : yoe = y2 - era * 400)
    (hmp : mp = if 2 < m then m - 3 else m + 9)
    (hdoy : doy = (153 * mp + 2) / 5 + d - 1)
    (hdoe : doe = yoe * 365 + yoe / 4 - yoe / 100 + doy) :
    civilFromDays (era * 146097 + doe - 719468) = (y, m, d) := by
  have hyoeb : 0 ≤ yoe ∧ yoe ≤ 399 := by omega
  have hmpb : 0 ≤ mp ∧ mp ≤ 11 := by split_ifs at hmp <;> omega
  have hd31 : d ≤ 31 := by
    simp only [daysInMonth, isLeap] at hd2
    split_ifs at hd2 <;> omega
  have hy : y = era * 400 + yoe + (if m ≤ 2 then 1 else 0) := by
    split_ifs at hy2 ⊢ <;> omega
  have hdoyb : 0 ≤ doy := by omega
  have hleapb : doy ≤ 364 +
      (if ((yoe + 1) % 4 = 0 ∧ (yoe + 1) % 100 ≠ 0) ∨ (yoe + 1) % 400 = 0
        then 1 else 0) := by
    simp only [daysInMonth, isLeap] at hd2
    split_ifs at hmp hd2 ⊢ <;> omega
  have hdoeb1 : 0 ≤ doe := by omega
  have hdoeb2 : doe ≤ 146096 := by split_ifs at hleapb <;> omega
  have hyrec := yoe_recover yoe doy doe hyoeb.1 hyoeb.2 hdoyb hleapb hdoe
  have hdoyrec : doe - (365 * yoe + yoe / 4 - yoe / 100) = doy := by omega
  rw [civilFromDays_eval era doe yoe doy hdoeb1 hdoeb2 hyrec hdoyrec]
  have hmprec : (5 * doy + 2) / 153 = mp := by
    simp only [daysInMonth, isLeap] at hd2
    interval_cases m <;> split_ifs at hmp hd2 <;> omega
  have hdrec : doy - (153 * ((5 * doy + 2) / 153) + 2) / 5 + 1 = d := by
    rw [hmprec]
    split_ifs at hmp <;> interval_cases m <;> omega
  have hmrec : (5 * doy + 2) / 153 + (if (5 * doy + 2) / 153 < 10 then 3 else -9) = m := by
    rw [hmprec]
    split_ifs at hmp ⊢ <;> omega
  rw [hmrec, hdrec]
  have hyfin : (if m ≤ 2 then yoe + era * 400 + 1 else yoe + era * 400) = y := by
    split_ifs <;> omega
  rw [hyfin]

theorem civil_roundtrip (y m d : Int) (hv : validDate y m d) :
    civilFromDays (daysFromCivil y m d) = (y, m, d) := by
  obtain ⟨hm1, hm2, hd1, hd2⟩ := hv
  exact roundtrip_core y m d _ _ _ _ _ _ hm1 hm2 hd1 hd2 rfl rfl rfl rfl rfl rfl

/-! ### Digit rendering and parsing of date strings -/

theorem digitChar_isDigit (n : Nat) (h : n ≤ 9) : (digitChar n).isDigit = true := by
  interval_cases n <;> rfl

theorem digitChar_toNat (n : Nat) (h : n ≤ 9) : (digitChar n).toNat = 48 + n := by
  interval_cases n <;> rfl

theorem digitChar_inj (a b : Nat) (ha : a ≤ 9) (hb : b ≤ 9)
    (h : digitChar a = digitChar b) : a = b := by
  have := congrArg Char.toNat h
  rw [digitChar_toNat a ha, digitChar_toNat b hb] at this
  omega

theorem pad2_eq (k : Int) (h0 : 0 ≤ k) (h9 : k ≤ 99) :
    padStartTwo (intToChars k) =
      [digitChar ((k / 10).toNat), digitChar ((k % 10).toNat)] := by
  rw [intToChars, if_neg (by omega)]
  by_cases hk : k.toNat < 10
  · rw [natToChars, dif_pos hk, padStartTwo]
    rw [if_neg (by simp), if_pos (by simp)]
    have e1 : (k / 10).toNat = 0 := by omega
    have e2 : (k % 10).toNat = k.toNat := by omega
    rw [e1, e2]
    rfl
  · rw [natToChars, dif_neg hk, natToChars, dif_pos (by omega), padStartTwo,
      if_pos (by simp)]
    have e1 : (k / 10).toNat = k.toNat / 10 := by omega
    have e2 : (k % 10).toNat = k.toNat % 10 := by omega
    rw [e1, e2]
    rfl

theorem year4_eq (k : Int) (h1 : 1000 ≤ k) (h2 : k ≤ 9999) :
    intToChars k = [digitChar ((k / 1000).toNat), digitChar ((k / 100 % 10).toNat),
      digitChar ((k / 10 % 10).toNat), digitChar ((k % 10).toNat)] := by
  rw [intToChars, if_neg (by omega)]
  rw [natToChars, dif_neg (by omega), natToChars, dif_neg (by omega),
    natToChars, dif_neg (by omega), natToChars, dif_pos (by omega)]
  have e1 : k.toNat / 10 / 10 / 10 = (k / 1000).toNat := by omega
  have e2 : k.toNat / 10 / 10 % 10 = (k / 100 % 10).toNat := by omega
  have e3 : k.toNat / 10 % 10 = (k / 10 % 10).toNat := by omega
  have e4 : k.toNat % 10 = (k % 10).toNat := by omega
  rw [e1, e2, e3, e4]
  rfl

theorem renderYmd_expand (y m d : Int) (hy1 : 1000 ≤ y) (hy2 : y ≤ 9999)
    (hm1 : 0 ≤ m) (hm2 : m ≤ 99) (hd1 : 0 ≤ d) (hd2 : d ≤ 99) :
    renderYmd y m d = [digitChar ((y / 1000).toNat), digitChar ((y / 100 % 10).toNat),
      digitChar ((y / 10 % 10).toNat), digitChar ((y % 10).toNat), '-',
      digitChar ((m / 10).toNat), digitChar ((m % 10).toNat), '-',
      digitChar ((d / 10).toNat), digitChar ((d % 10).toNat)] := by
  rw [renderYmd, year4_eq y hy1 hy2, pad2_eq m hm1 hm2, pad2_eq d hd1 hd2]
  rfl

theorem digits4_val (y y2 : Int)
    (hy1 : 1000 ≤ y) (hy2 : y ≤ 9999) (hy1' : 1000 ≤ y2) (hy2' : y2 ≤ 9999)
    (g1 : (y / 1000).toNat = (y2 / 1000).toNat)
    (g2 : (y / 100 % 10).toNat = (y2 / 100 % 10).toNat)
    (g3 : (y / 10 % 10).toNat = (y2 / 10 % 10).toNat)
    (g4 : (y % 10).toNat = (y2 % 10).toNat) : y = y2 := by
  omega

theorem digits2_val (m m2 : Int)
    (hm1 : 0 ≤ m) (hm2 : m ≤ 99) (hm1' : 0 ≤ m2) (hm2' : m2 ≤ 99)
    (g1 : (m / 10).toNat = (m2 / 10).toNat)
    (g2 : (m % 10).toNat = (m2 % 10).toNat) : m = m2 := by
  omega

theorem renderYmd_inj (y m d y2 m2 d2 : Int)
    (hy1 : 1000 ≤ y) (hy2 : y ≤ 9999) (hm1 : 0 ≤ m) (hm2 : m ≤ 99)
    (hd1 : 0 ≤ d) (hd2 : d ≤ 99)
    (hy1' : 1000 ≤ y2) (hy2' : y2 ≤ 9999) (hm1' : 0 ≤ m2) (hm2' : m2 ≤ 99)
    (hd1' : 0 ≤ d2) (hd2' : d2 ≤ 99)
    (h : renderYmd y m d = renderYmd y2 m2 d2) : y = y2 ∧ m = m2 ∧ d = d2 := by
  rw [renderYmd_expand y m d hy1 hy2 hm1 hm2 hd1 hd2,
    renderYmd_expand y2 m2 d2 hy1' hy2' hm1' hm2' hd1' hd2'] at h
  simp only [List.cons.injEq, and_true, true_and] at h
  obtain ⟨e1, e2, e3, e4, e5, e6, e7, e8⟩ := h
  refine ⟨digits4_val y y2 hy1 hy2 hy1' hy2'
      (digitChar_inj ((y / 1000).toNat) ((y2 / 1000).toNat) (by omega) (by omega) e1)
      (digitChar_inj ((y / 100 % 10).toNat) ((y2 / 100 % 10).toNat) (by omega) (by omega) e2)
      (digitChar_inj ((y / 10 % 10).toNat) ((y2 / 10 % 10).toNat) (by omega) (by omega) e3)
      (digitChar_inj ((y % 10).toNat) ((y2 % 10).toNat) (by omega) (by omega) e4),
    digits2_val m m2 hm1 hm2 hm1' hm2'
      (digitChar_inj ((m / 10).toNat) ((m2 / 10).toNat) (by omega) (by omega) e5)
      (digitChar_inj ((m % 10).toNat) ((m2 % 10).toNat) (by omega) (by omega) e6),
    digits2_val d d2 hd1 hd2 hd1' hd2'
      (digitChar_inj ((d / 10).toNat) ((d2 / 10).toNat) (by omega) (by omega) e7)
      (digitChar_inj ((d % 10).toNat) ((d2 % 10).toNat) (by omega) (by omega) e8)⟩

theorem splitOnDash_ne_nil (l : List Char) : splitOnDash l ≠ [] := by
  induction l with
  | nil => simp [splitOnDash]
  | cons c cs ih =>
    rw [splitOnDash]
    split_ifs
    · simp
    · cases h : splitOnDash cs with
      | nil => simp
      | cons p ps => simp

theorem splitOnDash_cons_dash (rest : List Char) :
    splitOnDash ('-' :: rest) = [] :: splitOnDash rest := by
  rw [splitOnDash, if_pos rfl]

theorem splitOnDash_append_dash (p rest : List Char) (h : ∀ c ∈ p, c ≠ '-') :
    splitOnDash (p ++ '-' :: rest) = p :: splitOnDash rest := by
  induction p with
  | nil =>
    rw [List.nil_append, splitOnDash_cons_dash]
  | cons c cs ih =>
    rw [List.cons_append, splitOnDash, if_neg (h c (List.mem_cons_self c cs)),
      ih fun x hx => h x (List.mem_cons_of_mem c hx)]

theorem splitOnDash_append_head (p rest h0 : List Char) (t0 : List (List Char))
    (h : ∀ c ∈ p, c ≠ '-') (hrest : splitOnDash rest = h0 :: t0) :
    splitOnDash (p ++ rest) = (p ++ h0) :: t0 := by
  induction p with
  | nil =>
    rw [List.nil_append, List.nil_append]
    exact hrest
  | cons c cs ih =>
    rw [List.cons_append, splitOnDash, if_neg (h c (List.mem_cons_self c cs)),
      ih fun x hx => h x (List.mem_cons_of_mem c hx)]
    rfl

theorem isDigit_ne_dash (c : Char) (h : c.isDigit = true) : c ≠ '-' := by
  intro heq
  subst heq
  exact absurd h (by decide)

theorem isDigit_ne_plus (c : Char) (h : c.isDigit = true) : c ≠ '+' := by
  intro heq
  subst heq
  exact absurd h (by decide)

theorem takeWhile_digits_append (p rest : List Char)
    (hp : ∀ c ∈ p, c.isDigit = true)
    (hrest : rest.takeWhile Char.isDigit = []) :
    (p ++ rest).takeWhile Char.isDigit = p := by
  induction p with
  | nil =>
    rw [List.nil_append]
    exact hrest
  | cons c cs ih =>
    rw [List.cons_append, List.takeWhile_cons,
      if_pos (hp c (List.mem_cons_self c cs)),
      ih fun x hx => hp x (List.mem_cons_of_mem c hx)]

theorem leadingDigitsVal_append (p rest : List Char)
    (hp : ∀ c ∈ p, c.isDigit = true) (hne : p ≠ [])
    (hrest : rest.takeWhile Char.isDigit = []) :
    leadingDigitsVal (p ++ rest) =
      some (p.foldl (fun a c => a * 10 + (c.toNat - 48)) 0) := by
  simp only [leadingDigitsVal]
  rw [takeWhile_digits_append p rest hp hrest]
  rw [if_neg (by simpa using hne)]

theorem parseIntJS_digits (p rest : List Char)
    (hp : ∀ c ∈ p, c.isDigit = true) (hne : p ≠ [])
    (hrest : rest.takeWhile Char.isDigit = []) :
    parseIntJS (p ++ rest) =
      some ((p.foldl (fun a c => a * 10 + (c.toNat - 48)) 0 : Nat) : Int) := by
  cases p with
  | nil => exact absurd rfl hne
  | cons c cs =>
    have hcd : c.isDigit = true := hp c (List.mem_cons_self c cs)
    rw [List.cons_append]
    unfold parseIntJS
    split
    · next heq =>
      rw [List.cons.injEq] at heq
      exact absurd heq.1 (isDigit_ne_dash c hcd)
    · next heq =>
      rw [List.cons.injEq] at heq
      exact absurd heq.1 (isDigit_ne_plus c hcd)
    · rw [← List.cons_append,
        leadingDigitsVal_append (c :: cs) rest hp hne hrest]
      rfl

theorem foldl_four_digits (a b c e : Nat) (ha : a ≤ 9) (hb : b ≤ 9) (hc : c ≤ 9)
    (he : e ≤ 9) :
    [digitChar a, digitChar b, digitChar c, digitChar e].foldl
      (fun a c => a * 10 + (c.toNat - 48)) 0 = 1000 * a + 100 * b + 10 * c + e := by
  simp only [List.foldl_cons, List.foldl_nil]
  rw [digitChar_toNat a ha, digitChar_toNat b hb, digitChar_toNat c hc,
    digitChar_toNat e he]
  omega

theorem foldl_two_digits (a b : Nat) (ha : a ≤ 9) (hb : b ≤ 9) :
    [digitChar a, digitChar b].foldl (fun a c => a * 10 + (c.toNat - 48)) 0 =
      10 * a + b := by
  simp only [List.foldl_cons, List.foldl_nil]
  rw [digitChar_toNat a ha, digitChar_toNat b hb]
  omega

theorem renderYmd_decomp (y m d : Int) (hy1 : 1000 ≤ y) (hy2 : y ≤ 9999)
    (hm1 : 0 ≤ m) (hm2 : m ≤ 99) (hd1 : 0 ≤ d) (hd2 : d ≤ 99) :
    renderYmd y m d = yearDigits y ++ '-' :: (twoDigits m ++ '-' :: twoDigits d) := by
  rw [renderYmd_expand y m d hy1 hy2 hm1 hm2 hd1 hd2]
  rfl

theorem yearDigits_digits (y : Int) (hy1 : 1000 ≤ y) (hy2 : y ≤ 9999) :
    ∀ x ∈ yearDigits y, x.isDigit = true := by
  intro x hx
  fin_cases hx <;> exact digitChar_isDigit _ (by omega)

theorem twoDigits_digits (k : Int) (h0 : 0 ≤ k) (h9 : k ≤ 99) :
    ∀ x ∈ twoDigits k, x.isDigit = true := by
  intro x hx
  fin_cases hx <;> exact digitChar_isDigit _ (by omega)

theorem suffix_chunk_no_digit (suffix h0 : List Char) (t0 : List (List Char))
    (hgood : suffix = [] ∨ ∃ c cs, suffix = c :: cs ∧ c.isDigit = false)
    (hsplit : splitOnDash suffix = h0 :: t0) :
    h0.takeWhile Char.isDigit = [] := by
  rcases hgood with rfl | ⟨c, cs, rfl, hcd⟩
  · simp [splitOnDash] at hsplit
    rw [hsplit.1]
    rfl
  · rw [splitOnDash] at hsplit
    split_ifs at hsplit with hdash
    · rw [List.cons.injEq] at hsplit
      rw [← hsplit.1]
      rfl
    · cases h : splitOnDash cs with
      | nil => exact absurd h (splitOnDash_ne_nil cs)
      | cons p ps =>
        rw [h] at hsplit
        rw [List.cons.injEq] at hsplit
        rw [← hsplit.1, List.takeWhile_cons, if_neg (by simp [hcd])]

theorem foldl_yearDigits (y : Int) (hy1 : 1000 ≤ y) (hy2 : y ≤ 9999) :
    (yearDigits y).foldl (fun a c => a * 10 + (c.toNat - 48)) 0 = y.toNat := by
  unfold yearDigits
  rw [foldl_four_digits _ _ _ _ (by omega) (by omega) (by omega) (by omega)]
  omega

theorem parse_yearDigits (y : Int) (hy1 : 1000 ≤ y) (hy2 : y ≤ 9999) :
    parseIntJS (yearDigits y) = some y := by
  have h := parseIntJS_digits (yearDigits y) [] (yearDigits_digits y hy1 hy2)
    (by simp [yearDigits]) rfl
  rw [List.append_nil] at h
  rw [h, foldl_yearDigits y hy1 hy2, Int.toNat_of_nonneg (by omega)]

theorem foldl_twoDigits (k : Int) (h0 : 0 ≤ k) (h9 : k ≤ 99) :
    (twoDigits k).foldl (fun a c => a * 10 + (c.toNat - 48)) 0 = k.toNat := by
  unfold twoDigits
  rw [foldl_two_digits _ _ (by omega) (by omega)]
  omega

theorem parse_twoDigits (k : Int) (rest : List Char) (h0 : 0 ≤ k) (h9 : k ≤ 99)
    (hrest : rest.takeWhile Char.isDigit = []) :
    parseIntJS (twoDigits k ++ rest) = some k := by
  rw [parseIntJS_digits (twoDigits k) rest (twoDigits_digits k h0 h9)
    (by simp [twoDigits]) hrest]
  rw [foldl_twoDigits k h0 h9, Int.toNat_of_nonneg (by omega)]

theorem parse_twoDigits_nil (k : Int) (h0 : 0 ≤ k) (h9 : k ≤ 99) :
    parseIntJS (twoDigits k) = some k := by
  have h := parse_twoDigits k [] h0 h9 rfl
  rwa [List.append_nil] at h

theorem format_good (y m d : Int) (suffix : List Char)
    (hv : validDate y m d) (hy1 : 1000 ≤ y) (hy2 : y ≤ 9999)
    (hsuf : suffix = [] ∨ ∃ c cs, suffix = c :: cs ∧ c.isDigit = false) :
    formatDateForComparison (renderYmd y m d ++ suffix) = renderYmd y m d := by
  have hm1 : 1 ≤ m := hv.1
  have hm2 : m ≤ 12 := hv.2.1
  have hd1 : 1 ≤ d := hv.2.2.1
  have hd31 : d ≤ 31 := by
    have hd2 := hv.2.2.2
    simp only [daysInMonth, isLeap] at hd2
    split_ifs at hd2 <;> omega
  have hexp := renderYmd_expand y m d hy1 hy2 (by omega) (by omega) (by omega)
    (by omega)
  have hdec := renderYmd_decomp y m d hy1 hy2 (by omega) (by omega) (by omega)
    (by omega)
  rcases hsuf with rfl | ⟨c, cs, rfl, hcd⟩
  · rw [List.append_nil]
    have hmatch : matchesYmdPattern (renderYmd y m d) = true := by
      rw [hexp]
      rw [show matchesYmdPattern [digitChar ((y / 1000).toNat),
        digitChar ((y / 100 % 10).toNat), digitChar ((y / 10 % 10).toNat),
        digitChar ((y % 10).toNat), '-', digitChar ((m / 10).toNat),
        digitChar ((m % 10).toNat), '-', digitChar ((d / 10).toNat),
        digitChar ((d % 10).toNat)] =
        ((digitChar ((y / 1000).toNat)).isDigit &&
         (digitChar ((y / 100 % 10).toNat)).isDigit &&
         (digitChar ((y / 10 % 10).toNat)).isDigit &&
         (digitChar ((y % 10).toNat)).isDigit &&
         (digitChar ((m / 10).toNat)).isDigit &&
         (digitChar ((m % 10).toNat)).isDigit &&
         (digitChar ((d / 10).toNat)).isDigit &&
         (digitChar ((d % 10).toNat)).isDigit) from rfl]
      rw [digitChar_isDigit _ (by omega), digitChar_isDigit _ (by omega),
        digitChar_isDigit _ (by omega), digitChar_isDigit _ (by omega),
        digitChar_isDigit _ (by omega), digitChar_isDigit _ (by omega),
        digitChar_isDigit _ (by omega), digitChar_isDigit _ (by omega)]
      rfl
    unfold formatDateForComparison
    rw [if_pos hmatch]
  · have hmatch : matchesYmdPattern (renderYmd y m d ++ c :: cs) = false := by
      rw [hexp]
      rfl
    unfold formatDateForComparison
    rw [if_neg (by rw [hmatch]; exact Bool.false_ne_true)]
    dsimp only
    obtain ⟨h0, t0, hsplitsuf⟩ : ∃ h0 t0, splitOnDash (c :: cs) = h0 :: t0 := by
      cases h : splitOnDash (c :: cs) with
      | nil => exact absurd h (splitOnDash_ne_nil (c :: cs))
      | cons p ps => exact ⟨p, ps, rfl⟩
    have hh0 : h0.takeWhile Char.isDigit = [] :=
      suffix_chunk_no_digit (c :: cs) h0 t0 (Or.inr ⟨c, cs, rfl, hcd⟩) hsplitsuf
    have hY4nd : ∀ x ∈ yearDigits y, x ≠ '-' := by
      intro x hx
      exact isDigit_ne_dash x (yearDigits_digits y hy1 hy2 x hx)
    have hM2nd : ∀ x ∈ twoDigits m, x ≠ '-' := by
      intro x hx
      exact isDigit_ne_dash x (twoDigits_digits m (by omega) (by omega) x hx)
    have hD2nd : ∀ x ∈ twoDigits d, x ≠ '-' := by
      intro x hx
      exact isDigit_ne_dash x (twoDigits_digits d (by omega) (by omega) x hx)
    have hsplit : splitOnDash (renderYmd y m d ++ c :: cs) =
        yearDigits y :: twoDigits m :: (twoDigits d ++ h0) :: t0 := by
      rw [hdec]
      rw [show (yearDigits y ++ '-' :: (twoDigits m ++ '-' :: twoDigits d)) ++ c :: cs =
        yearDigits y ++ '-' :: (twoDigits m ++ '-' :: (twoDigits d ++ c :: cs)) by
          simp [List.append_assoc]]
      rw [splitOnDash_append_dash (yearDigits y) _ hY4nd]
      rw [splitOnDash_append_dash (twoDigits m) _ hM2nd]
      rw [splitOnDash_append_head (twoDigits d) (c :: cs) h0 t0 hD2nd hsplitsuf]
    rw [hsplit]
    rw [show (yearDigits y :: twoDigits m :: (twoDigits d ++ h0) :: t0).getD 0 [] =
      yearDigits y from rfl]
    rw [show (yearDigits y :: twoDigits m :: (twoDigits d ++ h0) :: t0).getD 1 [] =
      twoDigits m from rfl]
    rw [show (yearDigits y :: twoDigits m :: (twoDigits d ++ h0) :: t0).getD 2 [] =
      twoDigits d ++ h0 from rfl]
    rw [parse_yearDigits y hy1 hy2]
    rw [parse_twoDigits_nil m (by omega) (by omega)]
    rw [parse_twoDigits d h0 (by omega) (by omega) hh0]
    dsimp only
    have hjs : jsDateDays y (m - 1) d = daysFromCivil y m d := by
      unfold jsDateDays
      have h1 : y + (m - 1) / 12 = y := by omega
      have h2 : (m - 1) % 12 + 1 = m := by omega
      rw [h1, h2]
    rw [hjs, civil_roundtrip y m d hv]

theorem validDate_d_le (y m d : Int) (hv : validDate y m d) : d ≤ 31 := by
  have hd2 := hv.2.2.2
  simp only [daysInMonth, isLeap] at hd2
  split_ifs at hd2 <;> omega

theorem renderYmd_ne_nil (y m d : Int) (hy1 : 1000 ≤ y) (hy2 : y ≤ 9999)
    (hm1 : 0 ≤ m) (hm2 : m ≤ 99) (hd1 : 0 ≤ d) (hd2 : d ≤ 99)
    (suffix : List Char) : renderYmd y m d ++ suffix ≠ [] := by
  rw [renderYmd_expand y m d hy1 hy2 hm1 hm2 hd1 hd2]
  simp

/-! ### Task filtering by deadline date (C8) -/

/-- Claim C8: on canonical backend date strings, `fetchDayData`'s task list
contains exactly those of the supplied tasks whose deadline's calendar-date
part equals the requested date — any time-of-day suffix after the date is
ignored by the comparison (the string is parsed as plain year/month/day and
re-rendered), and no process timezone enters the computation at all — and
every task with a null deadline is excluded. -/
theorem claim_C8_tasksDue_by_date (db : Db) (authId : Nat) (apiTasks : List Task)
    (off : Int) (ky km kd : Int)
    (hkv : validDate ky km kd) (hk1 : 1000 ≤ ky) (hk2 : ky ≤ 9999)
    (htasks : ∀ t ∈ apiTasks, ∀ dl, t.deadline = some dl → GoodDeadline dl) :
    (∀ t ∈ (fetchDayData db authId apiTasks (renderYmd ky km kd) off).tasks,
      t ∈ apiTasks) ∧
    (∀ t ∈ apiTasks,
      (t ∈ (fetchDayData db authId apiTasks (renderYmd ky km kd) off).tasks ↔
        ∃ dl suffix, t.deadline = some dl ∧
          (suffix = [] ∨ ∃ c cs, suffix = c :: cs ∧ c.isDigit = false) ∧
          dl = renderYmd ky km kd ++ suffix)) ∧
    (∀ t ∈ apiTasks, t.deadline = none →
      t ∉ (fetchDayData db authId apiTasks (renderYmd ky km kd) off).tasks) := by
  have htarget : formatDateForComparison (renderYmd ky km kd) = renderYmd ky km kd := by
    have h := format_good ky km kd [] hkv hk1 hk2 (Or.inl rfl)
    rwa [List.append_nil] at h
  have hmem : ∀ t, t ∈ (fetchDayData db authId apiTasks (renderYmd ky km kd) off).tasks ↔
      t ∈ apiTasks ∧ (match t.deadline with
        | none => false
        | some dl =>
            if dl = [] then false
            else decide (formatDateForComparison dl =
              formatDateForComparison (renderYmd ky km kd))) = true := by
    intro t
    rw [fetchDayData_tasks_eq]
    exact List.mem_filter
  refine ⟨?_, ?_, ?_⟩
  · intro t ht
    exact ((hmem t).1 ht).1
  · intro t ht
    constructor
    · intro htin
      have hP := ((hmem t).1 htin).2
      cases hdl : t.deadline with
      | none =>
        rw [hdl] at hP
        simp at hP
      | some dl =>
        obtain ⟨y, m, d, suffix, hv', hy1', hy2', hsuf', hdleq⟩ := htasks t ht dl hdl
        have hne : dl ≠ [] := by
          rw [hdleq]
          exact renderYmd_ne_nil y m d hy1' hy2'
            (by have := hv'.1; omega) (by have := hv'.2.1; omega)
            (by have := hv'.2.2.1; omega) (by have := validDate_d_le y m d hv'; omega)
            suffix
        rw [hdl] at hP
        dsimp only at hP
        rw [if_neg hne, decide_eq_true_eq] at hP
        rw [hdleq, format_good y m d suffix hv' hy1' hy2' hsuf', htarget] at hP
        have hb1 := hv'.1
        have hb2 := hv'.2.1
        have hb3 := hv'.2.2.1
        have hb4 := validDate_d_le y m d hv'
        have hc1 := hkv.1
        have hc2 := hkv.2.1
        have hc3 := hkv.2.2.1
        have hc4 := validDate_d_le ky km kd hkv
        obtain ⟨ey, em, ed⟩ := renderYmd_inj y m d ky km kd hy1' hy2' (by omega)
          (by omega) (by omega) (by omega) hk1 hk2 (by omega) (by omega) (by omega)
          (by omega) hP
        refine ⟨dl, suffix, rfl, hsuf', ?_⟩
        rw [hdleq, ey, em, ed]
    · rintro ⟨dl, suffix, hdl, hsuf2, hdleq⟩
      refine (hmem t).2 ⟨ht, ?_⟩
      have hc3 := hkv.2.2.1
      have hc4 := validDate_d_le ky km kd hkv
      have hne : dl ≠ [] := by
        rw [hdleq]
        exact renderYmd_ne_nil ky km kd hk1 hk2 (by have := hkv.1; omega)
          (by have := hkv.2.1; omega) (by omega) (by omega) suffix
      rw [hdl]
      dsimp only
      rw [if_neg hne, decide_eq_true_eq, hdleq,
        format_good ky km kd suffix hkv hk1 hk2 hsuf2, htarget]
  · intro t ht hdl htin
    have hP := ((hmem t).1 htin).2
    rw [hdl] at hP
    simp at hP

theorem claim_C8_witness :
    validDate 2024 3 1 ∧
    (⟨1, 9, none, "a", none, none, false, some (renderYmd 2024 3 1)⟩ : Task) ∈
      (fetchDayData ⟨[], [], [], 0⟩ 9
        [⟨1, 9, none, "a", none, none, false, some (renderYmd 2024 3 1)⟩,
         ⟨2, 9, none, "b", none, none, false, none⟩]
        (renderYmd 2024 3 1) 0).tasks ∧
    (⟨2, 9, none, "b", none, none, false, none⟩ : Task) ∉
      (fetchDayData ⟨[], [], [], 0⟩ 9
        [⟨1, 9, none, "a", none, none, false, some (renderYmd 2024 3 1)⟩,
         ⟨2, 9, none, "b", none, none, false, none⟩]
        (renderYmd 2024 3 1) 0).tasks := by
  have htasks : ∀ t ∈ [(⟨1, 9, none, "a", none, none, false,
        some (renderYmd 2024 3 1)⟩ : Task),
      ⟨2, 9, none, "b", none, none, false, none⟩],
      ∀ dl, t.deadline = some dl → GoodDeadline dl := by
    intro t ht dl hdl
    rcases List.mem_cons.1 ht with rfl | ht2
    · refine ⟨2024, 3, 1, [], by decide, by norm_num, by norm_num, Or.inl rfl, ?_⟩
      rw [List.append_nil]
      exact (Option.some.inj hdl).symm
    · rcases List.mem_cons.1 ht2 with rfl | ht3
      · exact absurd hdl (by simp)
      · exact absurd ht3 (List.not_mem_nil t)
  have h := claim_C8_tasksDue_by_date ⟨[], [], [], 0⟩ 9
    [⟨1, 9, none, "a", none, none, false, some (renderYmd 2024 3 1)⟩,
     ⟨2, 9, none, "b", none, none, false, none⟩] 0 2024 3 1
    (by decide) (by norm_num) (by norm_num) htasks
  refine ⟨by decide, ?_, ?_⟩
  · exact (h.2.1 _ (List.mem_cons_self _ _)).2
      ⟨renderYmd 2024 3 1, [], rfl, Or.inl rfl, (List.append_nil _).symm⟩
  · exact h.2.2 _ (List.mem_cons_of_mem _ (List.mem_cons_self _ _)) rfl


end FuelAI
